import Mathlib

/-!
Shallow embedding (in Lean 4) of parts of the or-tools repository, used to
check the claims of its natural-language specification:

* `src/src/sat/boolean_problem.cc` — linear Boolean problems, assignment
  validity, objective value, sign normalisation, and the symmetry-detection
  graph builder;
* `src/trunk/src/flatzinc2/constraints.cc` — the flat-constraint dispatcher;
* `src/trunk/src/constraint_solver/routing.cc` — the routing model: arc-cost
  caching, disjunctions, node-disjunction filter, solve status, the Savings
  first-solution heuristic, and the routes/assignment conversions.

Machine integers (`int64`) are modelled as unbounded `Int`; the properties
checked here do not hinge on wrap-around behaviour.
-/

namespace OrTools

/-! ## SAT: linear Boolean problems (`boolean_problem.cc`) -/

namespace Sat

/-- A literal in the protocol-buffer signed encoding used by
`boolean_problem.cc`: a nonzero integer `l`; `Literal(l).Variable() = |l| - 1`
and `Literal(l).IsPositive() = (l > 0)`. -/
def litVariable (l : Int) : Int := |l| - 1

/-- `Literal::IsPositive()` for the signed encoding. -/
def litIsPositive (l : Int) : Bool := decide (0 < l)

/-- A Boolean assignment, keyed by variable index.  (In the C++ code this is a
`std::vector<bool>` indexed by `literal.Variable().value()`; we key by `Int`
directly so that the embedding needs no bounds side conditions.) -/
def Assignment := Int → Bool

/-- The summand test in `ComputeObjectiveValue` / `IsAssignmentValid`:
`assignment[literal.Variable().value()] == literal.IsPositive()`. -/
def litHolds (a : Assignment) (l : Int) : Bool :=
  a (litVariable l) == litIsPositive l

/-- One linear Boolean constraint: parallel `literals` / `coefficients`
arrays and optional bounds, as in the `LinearBooleanConstraint` proto. -/
structure LinearBooleanConstraint where
  literals : List Int
  coefficients : List Int
  lowerBound : Option Int
  upperBound : Option Int
deriving Repr, DecidableEq

/-- The `LinearObjective` proto: parallel `literals` / `coefficients` arrays
and an `offset`. -/
structure LinearObjective where
  literals : List Int
  coefficients : List Int
  offset : Int
deriving Repr, DecidableEq

/-- The parts of the `LinearBooleanProblem` proto used by the functions
embedded here. -/
structure LinearBooleanProblem where
  constraints : List LinearBooleanConstraint
  objective : LinearObjective
deriving Repr, DecidableEq

/-- The sum `Σ coefficients(i) · [assignment[var(lit_i)] = IsPositive(lit_i)]`
computed by the loops of `ComputeObjectiveValue` and `IsAssignmentValid`. -/
def linearSum (a : Assignment) (literals coefficients : List Int) : Int :=
  ((literals.zip coefficients).map
    (fun t => if litHolds a t.1 then t.2 else 0)).sum

/-- `ComputeObjectiveValue(problem, assignment)`: the objective sum (the
offset is *not* added by the C++ function). -/
def ComputeObjectiveValue (problem : LinearBooleanProblem) (a : Assignment) :
    Int :=
  linearSum a problem.objective.literals problem.objective.coefficients

/-- Whether one constraint is satisfied: the per-constraint body of
`IsAssignmentValid` (the sum respects the present bounds). -/
def constraintHolds (a : Assignment) (c : LinearBooleanConstraint) : Bool :=
  let sum := linearSum a c.literals c.coefficients
  (match c.lowerBound with
   | some lb => decide (lb ≤ sum)
   | none => true) &&
  (match c.upperBound with
   | some ub => decide (sum ≤ ub)
   | none => true)

/-- `IsAssignmentValid(problem, assignment)`: all constraints satisfied. -/
def IsAssignmentValid (problem : LinearBooleanProblem) (a : Assignment) :
    Bool :=
  problem.constraints.all (constraintHolds a)

/-- The per-term rewrite of `MakeAllLiteralsPositive` on the objective:
a negative literal is replaced by its negation with negated coefficient. -/
def positiveTerm (t : Int × Int) : Int × Int :=
  if t.1 < 0 then (-t.1, -t.2) else t

/-- The objective-offset correction accumulated by `MakeAllLiteralsPositive`:
the sum of the original coefficients of the flipped (negative) literals. -/
def flippedCoeffSum (literals coefficients : List Int) : Int :=
  ((literals.zip coefficients).map
    (fun t => if t.1 < 0 then t.2 else 0)).sum

/-- `MakeAllLiteralsPositive` on the objective. -/
def makeObjectivePositive (o : LinearObjective) : LinearObjective :=
  let terms := (o.literals.zip o.coefficients).map positiveTerm
  { literals := terms.map Prod.fst
    coefficients := terms.map Prod.snd
    offset := o.offset + flippedCoeffSum o.literals o.coefficients }

/-- `MakeAllLiteralsPositive` on one constraint: flip negative literals and
shift both bounds down by the sum of the flipped coefficients. -/
def makeConstraintPositive (c : LinearBooleanConstraint) :
    LinearBooleanConstraint :=
  let sum := flippedCoeffSum c.literals c.coefficients
  let terms := (c.literals.zip c.coefficients).map positiveTerm
  { literals := terms.map Prod.fst
    coefficients := terms.map Prod.snd
    lowerBound := c.lowerBound.map (fun lb => lb - sum)
    upperBound := c.upperBound.map (fun ub => ub - sum) }

/-- `MakeAllLiteralsPositive(problem)`. -/
def MakeAllLiteralsPositive (problem : LinearBooleanProblem) :
    LinearBooleanProblem :=
  { constraints := problem.constraints.map makeConstraintPositive
    objective := makeObjectivePositive problem.objective }

theorem litHolds_neg (a : Assignment) (l : Int) (hl : l < 0) :
    litHolds a (-l) = !litHolds a l := by
  simp only [litHolds, litVariable, litIsPositive, abs_neg]
  rcases h : a (|l| - 1) with _ | _ <;>
    simp [Bool.beq_eq_decide_eq, hl, not_lt.mpr (le_of_lt hl),
      Int.neg_pos.mpr hl]

/-- The pointwise effect of `positiveTerm` on one summand of `linearSum`:
flipping a negative literal changes the contribution by minus the
coefficient of that (flipped) term. -/
theorem positiveTerm_contribution (a : Assignment) (t : Int × Int) :
    (if litHolds a (positiveTerm t).1 then (positiveTerm t).2 else 0) =
      (if litHolds a t.1 then t.2 else 0) -
        (if t.1 < 0 then t.2 else 0) := by
  by_cases hl : t.1 < 0
  · simp only [positiveTerm, if_pos hl, litHolds_neg a t.1 hl]
    rcases litHolds a t.1 with _ | _ <;> simp
  · simp [positiveTerm, hl]

/-- Summed form of `positiveTerm_contribution` over a term list. -/
theorem linearSum_positiveTerms (a : Assignment)
    (literals coefficients : List Int) :
    linearSum a (((literals.zip coefficients).map positiveTerm).map Prod.fst)
        (((literals.zip coefficients).map positiveTerm).map Prod.snd) =
      linearSum a literals coefficients -
        flippedCoeffSum literals coefficients := by
  unfold linearSum flippedCoeffSum
  rw [List.zip_map', List.map_map, List.map_map]
  induction literals.zip coefficients with
  | nil => simp
  | cons t rest ih =>
    simp only [List.map_cons, List.sum_cons, ih]
    have := positiveTerm_contribution a t
    simp only [Function.comp_apply] at this ⊢
    rw [this]
    ring

/-- Constraint satisfaction is preserved by `makeConstraintPositive`. -/
theorem constraintHolds_makeConstraintPositive (a : Assignment)
    (c : LinearBooleanConstraint) :
    constraintHolds a (makeConstraintPositive c) = constraintHolds a c := by
  unfold constraintHolds makeConstraintPositive
  simp only [linearSum_positiveTerms a c.literals c.coefficients]
  cases c.lowerBound <;> cases c.upperBound <;>
    simp [Option.map, sub_le_sub_iff_right]

/-- C10. `MakeAllLiteralsPositive` preserves the semantics of a linear
Boolean problem: `IsAssignmentValid` is unchanged for every assignment, and
`ComputeObjectiveValue` plus the objective offset is unchanged. -/
theorem makeAllLiteralsPositive_preserves_semantics
    (problem : LinearBooleanProblem) (a : Assignment) :
    IsAssignmentValid (MakeAllLiteralsPositive problem) a =
        IsAssignmentValid problem a ∧
      ComputeObjectiveValue (MakeAllLiteralsPositive problem) a +
          (MakeAllLiteralsPositive problem).objective.offset =
        ComputeObjectiveValue problem a + problem.objective.offset := by
  constructor
  · unfold IsAssignmentValid MakeAllLiteralsPositive
    simp only [List.all_map, Function.comp]
    induction problem.constraints with
    | nil => rfl
    | cons c rest ih =>
      simp only [List.all_cons, ih, Function.comp_apply,
        constraintHolds_makeConstraintPositive]
  · unfold ComputeObjectiveValue MakeAllLiteralsPositive makeObjectivePositive
    simp only [linearSum_positiveTerms a problem.objective.literals
      problem.objective.coefficients]
    ring

end Sat

/-! ## FlatZinc dispatcher (`flatzinc2/constraints.cc`) -/

namespace Flatzinc

/-- The extraction functions of `flatzinc2/constraints.cc`, one constructor
per `Extract*` function appearing in `FzSolver::ExtractConstraint`. -/
inductive FzExtractor where
  | allDifferentInt | alldifferentExcept0
  | arrayBoolAnd | arrayBoolOr | arrayBoolXor
  | arrayIntElement | arrayVarIntElement | arrayVarIntPosition
  | bool2int | boolAnd | boolClause | boolLeftImp | boolNot | boolOr
  | boolRightImp | boolXor
  | circuit
  | countEq | countGeq | countGt | countLeq | countLt | countNeq | countReif
  | diffn | fixedCumulative
  | globalCardinality | globalCardinalityClosed | globalCardinalityLowUp
  | globalCardinalityLowUpClosed | globalCardinalityOld
  | intAbs | intDiv | intEq | intEqReif | intGe | intGeReif | intGt
  | intGtReif | intIn | intLe | intLeReif
  | intLinEq | intLinEqReif | intLinGe | intLinGeReif | intLinLe
  | intLinLeReif | intLinNe | intLinNeReif
  | intLt | intLtReif | intMax | intMin | intMinus | intMod | intNe
  | intNeReif | intNegate | intPlus | intTimes
  | inverse
  | lexLessBool | lexLessInt | lexLesseqBool | lexLesseqInt
  | maximumInt | minimumInt | nvalue | regular
  | setIn | setInReif | slidingSum | sort | tableBool | tableInt
  | trueConstraint | varCumulative | variableCumulative
deriving Repr, DecidableEq

open FzExtractor in
/-- Whether the C++ body of the extraction function does real work
(`true`) or is a `LOG(FATAL)` stub (`false`).  The implemented bodies in
`constraints.cc` are `ExtractAllDifferentInt`, `ExtractAlldifferentExcept0`,
`ExtractArrayIntElement`, `ExtractIntEq/Ge/Gt/Le/Lt/Ne`, `ExtractIntLinEq`
and the (intentionally empty) `ExtractTrueConstraint`; `ExtractBool2int`'s
body is the fatal "should have been presolved out" message, and every other
body is the fatal "Not implemented" message. -/
def extractorImplemented : FzExtractor → Bool
  | allDifferentInt | alldifferentExcept0 | arrayIntElement
  | intEq | intGe | intGt | intLe | intLinEq | intLt | intNe
  | trueConstraint => true
  | _ => false

open FzExtractor in
/-- The `if/else if` dispatch cascade of `FzSolver::ExtractConstraint`,
in source order: each entry maps a tag string to the extraction function
called for it. -/
def dispatchTable : List (String × FzExtractor) :=
  [("all_different_int", allDifferentInt),
   ("alldifferent_except_0", alldifferentExcept0),
   ("array_bool_and", arrayBoolAnd),
   ("array_bool_element", arrayIntElement),
   ("array_bool_or", arrayBoolOr),
   ("array_bool_xor", arrayBoolXor),
   ("array_int_element", arrayIntElement),
   ("array_var_bool_element", arrayVarIntElement),
   ("array_var_int_element", arrayVarIntElement),
   ("array_var_int_position", arrayVarIntPosition),
   ("bool2int", bool2int),
   ("bool_and", boolAnd),
   ("bool_clause", boolClause),
   ("bool_eq", intEq),
   ("bool_eq_reif", intEqReif),
   ("bool_ge", intGe),
   ("bool_ge_reif", intGeReif),
   ("bool_gt", intGt),
   ("bool_gt_reif", intGtReif),
   ("bool_le", intLe),
   ("bool_le_reif", intLeReif),
   ("bool_left_imp", boolLeftImp),
   ("bool_lin_eq", intLinEq),
   ("bool_lin_le", intLinLe),
   ("bool_lt", intLt),
   ("bool_lt_reif", intLtReif),
   ("bool_ne", intNe),
   ("bool_ne_reif", intNeReif),
   ("bool_not", boolNot),
   ("bool_or", boolOr),
   ("bool_right_imp", boolRightImp),
   ("bool_xor", boolXor),
   ("circuit", circuit),
   ("count_eq", countEq),
   ("count_geq", countGeq),
   ("count_gt", countGt),
   ("count_leq", countLeq),
   ("count_lt", countLt),
   ("count_neq", countNeq),
   ("count_reif", countReif),
   ("diffn", diffn),
   ("fixed_cumulative", fixedCumulative),
   ("global_cardinality", globalCardinality),
   ("global_cardinality_closed", globalCardinalityClosed),
   ("global_cardinality_low_up", globalCardinalityLowUp),
   ("global_cardinality_low_up_closed", globalCardinalityLowUpClosed),
   ("global_cardinality_old", globalCardinalityOld),
   ("int_abs", intAbs),
   ("int_div", intDiv),
   ("int_eq", intEq),
   ("int_eq_reif", intEqReif),
   ("int_ge", intGe),
   ("int_ge_reif", intGeReif),
   ("int_gt", intGt),
   ("int_gt_reif", intGtReif),
   ("int_in", intIn),
   ("int_le", intLe),
   ("int_le_reif", intLeReif),
   ("int_lin_eq", intLinEq),
   ("int_lin_eq_reif", intLinEqReif),
   ("int_lin_ge", intLinGe),
   ("int_lin_ge_reif", intLinGeReif),
   ("int_lin_le", intLinLe),
   ("int_lin_le_reif", intLinLeReif),
   ("int_lin_ne", intLinNe),
   ("int_lin_ne_reif", intLinNeReif),
   ("int_lt", intLt),
   ("int_lt_reif", intLtReif),
   ("int_max", intMax),
   ("int_min", intMin),
   ("int_minus", intMinus),
   ("int_mod", intMod),
   ("int_ne", intNe),
   ("int_ne_reif", intNeReif),
   ("int_negate", intNegate),
   ("int_plus", intPlus),
   ("int_times", intTimes),
   ("inverse", inverse),
   ("lex_less_bool", lexLessBool),
   ("lex_less_int", lexLessInt),
   ("lex_lesseq_bool", lexLesseqBool),
   ("lex_lesseq_int", lexLesseqInt),
   ("maximum_int", maximumInt),
   ("minimum_int", minimumInt),
   ("nvalue", nvalue),
   ("regular", regular),
   ("set_in", setIn),
   ("set_in_reif", setInReif),
   ("sliding_sum", slidingSum),
   ("sort", sort),
   ("table_bool", tableBool),
   ("table_int", tableInt),
   ("true_constraint", trueConstraint),
   ("var_cumulative", varCumulative),
   ("variable_cumulative", variableCumulative)]

/-- `FzSolver::ExtractConstraint`'s tag lookup: the first matching branch of
the cascade, or `none` when no branch matches (the cascade has no final
`else`, so an unmatched tag falls through). -/
def ExtractConstraint (tag : String) : Option FzExtractor :=
  (dispatchTable.find? (fun e => e.1 = tag)).map (fun e => e.2)

/-- The observable outcome of dispatching one flat constraint. -/
inductive FzDispatchOutcome where
  | handled     -- an implemented extraction function ran
  | fatalError  -- a `LOG(FATAL)` stub was reached
  | silent      -- the tag matched no branch: nothing happens at all
deriving Repr, DecidableEq

/-- Outcome of `FzSolver::ExtractConstraint` on a tag. -/
def dispatchOutcome (tag : String) : FzDispatchOutcome :=
  match ExtractConstraint tag with
  | some ex =>
      if extractorImplemented ex then FzDispatchOutcome.handled
      else FzDispatchOutcome.fatalError
  | none => FzDispatchOutcome.silent

end Flatzinc

namespace Flatzinc

/-- C2 (counterexample). A tag absent from the dispatch cascade — here
`"int_opposite"` — has no handler implementation, yet dispatching it is
silent: `ExtractConstraint` falls through its `else if` chain without any
error and without producing anything, contradicting the claim that such a
dispatch fails fast. -/
theorem extractConstraint_unknown_tag_silent :
    ExtractConstraint "int_opposite" = none ∧
      dispatchOutcome "int_opposite" = FzDispatchOutcome.silent ∧
      FzDispatchOutcome.silent ≠ FzDispatchOutcome.fatalError := by
  refine ⟨by decide, by decide, by decide⟩

/-- C2 (amended). For every tag that the dispatch cascade maps to an
extraction function without an implementation (a `LOG(FATAL)` stub),
dispatching fails fast with a fatal error; only a tag matching no branch of
the cascade at all is silently ignored. -/
theorem dispatch_unimplemented_handler_fatal (tag : String) (ex : FzExtractor)
    (hfind : ExtractConstraint tag = some ex)
    (hstub : extractorImplemented ex = false) :
    dispatchOutcome tag = FzDispatchOutcome.fatalError := by
  unfold dispatchOutcome
  rw [hfind]
  simp [hstub]

/-- Witness for C2's amended theorem at the concrete tag `"int_eq_reif"`,
whose handler `ExtractIntEqReif` is a `LOG(FATAL)` stub. -/
theorem dispatch_unimplemented_handler_fatal_witness :
    ExtractConstraint "int_eq_reif" = some FzExtractor.intEqReif ∧
      dispatchOutcome "int_eq_reif" = FzDispatchOutcome.fatalError :=
  ⟨by decide,
   dispatch_unimplemented_handler_fatal "int_eq_reif" FzExtractor.intEqReif
     (by decide) (by decide)⟩

end Flatzinc

/-! ## Routing model (`constraint_solver/routing.cc`) -/

namespace Routing

/-- The `RoutingModel::Status` values relevant to `Solve`. -/
inductive RoutingStatus where
  | notSolved    -- ROUTING_NOT_SOLVED
  | success      -- ROUTING_SUCCESS
  | fail         -- ROUTING_FAIL
  | failTimeout  -- ROUTING_FAIL_TIMEOUT
deriving Repr, DecidableEq

/-- The observable inputs of the tail of `RoutingModel::Solve`: what the
solution collector holds after the underlying search ran, the elapsed wall
time of that search, and the configured time limit. -/
structure SolveContext (α : Type) where
  solutionCount : Nat  -- collect_assignments_->solution_count()
  solution : Nat → α   -- collect_assignments_->solution(i)
  elapsedMs : Int      -- solver wall_time after minus before
  timeLimitMs : Int    -- time_limit_ms_
deriving Inhabited

/-- The result computation of `RoutingModel::Solve`: the returned assignment
(or `none`) together with the status it stores. -/
def Solve {α : Type} (ctx : SolveContext α) : Option α × RoutingStatus :=
  if ctx.solutionCount = 1 then
    (some (ctx.solution 0), RoutingStatus.success)
  else
    (none,
     if ctx.elapsedMs ≥ ctx.timeLimitMs then RoutingStatus.failTimeout
     else RoutingStatus.fail)

/-- C5. `Solve` returns the collected assignment with status `Success` when
exactly one solution was collected; otherwise it returns no assignment, and
the status is `FailTimeout` exactly when the elapsed wall time reached the
time limit, `Fail` otherwise — so a timeout is always distinguishable from
an ordinary search failure. -/
theorem solve_status_characterisation {α : Type} (ctx : SolveContext α) :
    (ctx.solutionCount = 1 →
      Solve ctx = (some (ctx.solution 0), RoutingStatus.success)) ∧
    (ctx.solutionCount ≠ 1 →
      (Solve ctx).1 = none ∧
      ((Solve ctx).2 = RoutingStatus.failTimeout ↔
        ctx.elapsedMs ≥ ctx.timeLimitMs) ∧
      ((Solve ctx).2 = RoutingStatus.fail ↔
        ctx.elapsedMs < ctx.timeLimitMs)) := by
  constructor
  · intro h1
    simp [Solve, h1]
  · intro hne
    unfold Solve
    rw [if_neg hne]
    refine ⟨rfl, ?_, ?_⟩ <;> by_cases ht : ctx.elapsedMs ≥ ctx.timeLimitMs <;>
      simp [ht, lt_iff_not_ge]

/-- Witness for C5 at a concrete context: no solution collected and the
elapsed time below the limit yields `(none, Fail)`. -/
theorem solve_status_characterisation_witness :
    ((0 : Nat) ≠ 1 ∧
      (Solve { solutionCount := 0, solution := fun _ => (0 : Int),
               elapsedMs := 3, timeLimitMs := 10 }).1 = none ∧
      ((Solve { solutionCount := 0, solution := fun _ => (0 : Int),
                elapsedMs := 3, timeLimitMs := 10 }).2 =
          RoutingStatus.failTimeout ↔ (3 : Int) ≥ 10) ∧
      ((Solve { solutionCount := 0, solution := fun _ => (0 : Int),
                elapsedMs := 3, timeLimitMs := 10 }).2 =
          RoutingStatus.fail ↔ (3 : Int) < 10)) :=
  (solve_status_characterisation
    { solutionCount := 0, solution := fun _ => (0 : Int),
      elapsedMs := 3, timeLimitMs := 10 }).2 (by decide) |>.imp_left id
    |> fun h => ⟨by decide, h⟩

/-- `RoutingModel::Disjunction`: member node indices (already translated to
variable indices by `AddDisjunctionInternal`) and a penalty, `-1` meaning
mandatory. -/
structure Disjunction where
  nodes : List Nat
  penalty : Int
deriving Repr, DecidableEq

/-- The constraint network installed by `RoutingModel::CreateDisjunction`
for one disjunction, evaluated on a solution: `active` gives the value of
each `ActiveVar` and `noActive` the value of the extra
`no_active_var = MakeBoolVar()`.  `MakeSumEquality(vars, 1)` forces the
active values plus `noActive` to sum to 1, and for a negative penalty
`no_active_var->SetMax(0)` additionally forces `noActive = 0`. -/
def disjunctionConstraintHolds (d : Disjunction) (active : Nat → Nat)
    (noActive : Nat) : Prop :=
  (d.nodes.map active).sum + noActive = 1 ∧ (d.penalty < 0 → noActive = 0)

/-- The term `CreateDisjunction` contributes to the cost: nothing for a
negative penalty (it returns `NULL`), else `no_active_var * penalty`. -/
def disjunctionPenaltyCost (d : Disjunction) (noActive : Nat) : Int :=
  if d.penalty < 0 then 0 else (noActive : Int) * d.penalty

/-- The number of active nodes of the disjunction in a solution. -/
def activeNodeCount (d : Disjunction) (active : Nat → Nat) : Nat :=
  d.nodes.countP (fun n => active n = 1)

theorem sum_map_eq_countP (active : Nat → Nat)
    (hbool : ∀ n, active n ≤ 1) (nodes : List Nat) :
    (nodes.map active).sum = nodes.countP (fun n => active n = 1) := by
  induction nodes with
  | nil => rfl
  | cons n rest ih =>
    rw [List.map_cons, List.sum_cons, List.countP_cons, ih]
    by_cases h : active n = 1
    · simp [h, Nat.add_comm]
    · have h0 : active n = 0 := by have := hbool n; omega
      simp [h0, h]

/-- C7. For a mandatory disjunction (penalty `-1`), the constraint installed
by `CreateDisjunction` forces exactly one of the disjunction's nodes to be
active in every solution; for a non-negative penalty at most one node is
active, and the penalty is charged exactly when none is active. -/
theorem createDisjunction_semantics (d : Disjunction) (active : Nat → Nat)
    (noActive : Nat)
    (hactive : ∀ n, active n ≤ 1)  -- ActiveVars are Boolean variables
    (hno : noActive ≤ 1)           -- no_active_var is a Boolean variable
    (hsat : disjunctionConstraintHolds d active noActive) :
    (d.penalty = -1 → activeNodeCount d active = 1) ∧
    (0 ≤ d.penalty →
      activeNodeCount d active ≤ 1 ∧
      disjunctionPenaltyCost d noActive =
        (if activeNodeCount d active = 0 then d.penalty else 0)) := by
  obtain ⟨hsum, hmand⟩ := hsat
  rw [sum_map_eq_countP active hactive] at hsum
  unfold activeNodeCount
  constructor
  · intro hpen
    have h0 : noActive = 0 := hmand (by omega)
    omega
  · intro hpen
    have hcount : d.nodes.countP (fun n => active n = 1) + noActive = 1 :=
      hsum
    constructor
    · omega
    · unfold disjunctionPenaltyCost
      rw [if_neg (by omega)]
      by_cases hz : d.nodes.countP (fun n => active n = 1) = 0
      · have : noActive = 1 := by omega
        simp [hz, this]
      · have : noActive = 0 := by omega
        simp [hz, this]

/-- Witness for C7: disjunction `{0, 1}` with penalty `-1`, node 0 active,
node 1 inactive, `no_active_var = 0`. -/
theorem createDisjunction_semantics_witness :
    activeNodeCount ⟨[0, 1], -1⟩ (fun n => if n = 0 then 1 else 0) = 1 :=
  (createDisjunction_semantics ⟨[0, 1], -1⟩
      (fun n => if n = 0 then 1 else 0) 0
      (by intro n; by_cases h : n = 0 <;> simp [h])
      (by decide)
      (by constructor
          · decide
          · intro _; rfl)).1 rfl

/-- `RoutingModel::CostCacheElement`: the single-slot memo per source index
(`{node, cost_class, cost}`), initialised to `{-1, -1, 0}` at model setup. -/
structure CostCacheElement where
  node : Int       -- cached destination index j
  costClass : Int  -- cached cost class (kUnassigned = -1 when empty)
  cost : Int
deriving Repr, DecidableEq

/-- The parts of a closed `RoutingModel` that `GetArcCost` reads or writes.
The evaluators in `costs` are required by `SetCost` /
`SetVehicleCostInternal` to be repeatable, hence pure functions here. -/
structure RoutingCostModel where
  size : Nat                     -- Size(): the first vehicle-end index
  indexToNode : Int → Int        -- index_to_node_
  indexToVehicle : Int → Int     -- index_to_vehicle_ (kUnassigned = -1)
  fixedCosts : Int → Int         -- fixed_costs_ per vehicle
  costs : Int → Int → Int → Int  -- costs_[cost_class]->Run(node_i, node_j)
  costCache : Int → CostCacheElement

/-- Modelled from the spec: `RoutingModel::IsEnd` lives in `routing.h` (not
in the sources here); per the spec, `IsEnd(i)` holds precisely for the
contiguous tail of indices reserved for vehicle ends, i.e. `i ≥ Size()`. -/
def RoutingIsEnd (m : RoutingCostModel) (i : Int) : Bool :=
  decide ((m.size : Int) ≤ i)

/-- `RoutingModel::IsStart` (routing.cc line 3106):
`!IsEnd(index) && index_to_vehicle_[index] != kUnassigned`. -/
def RoutingIsStart (m : RoutingCostModel) (i : Int) : Bool :=
  !RoutingIsEnd m i && decide (m.indexToVehicle i ≠ -1)

/-- The cache-miss computation of `GetArcCost` (its three branches):
evaluator value, evaluator value plus the vehicle's fixed cost on an arc
leaving a start towards a non-end, and 0 on an empty start-to-end route. -/
def arcCostValue (m : RoutingCostModel) (i j costClass : Int) : Int :=
  if ¬ (RoutingIsStart m i = true) then
    m.costs costClass (m.indexToNode i) (m.indexToNode j)
  else if ¬ (RoutingIsEnd m j = true) then
    m.costs costClass (m.indexToNode i) (m.indexToNode j) +
      m.fixedCosts (m.indexToVehicle i)
  else 0

/-- `RoutingModel::GetArcCost(i, j, cost_class)`: returns the cached value
on a hit, otherwise computes `arcCostValue`, stores it in `cost_cache_[i]`
and returns it; a negative cost class returns 0.  The updated model is
returned alongside the value. -/
def GetArcCost (m : RoutingCostModel) (i j costClass : Int) :
    Int × RoutingCostModel :=
  if 0 ≤ costClass then
    let cache := m.costCache i
    if cache.node = j ∧ cache.costClass = costClass then
      (cache.cost, m)
    else
      let cost := arcCostValue m i j costClass
      (cost,
       { m with costCache := fun k =>
          if k = i then ⟨j, costClass, cost⟩ else m.costCache k })
  else (0, m)

/-- Coherence of the single-slot cost cache: every slot that can produce a
hit holds exactly the value the miss path would compute.  It holds of the
initial cache installed by `SetStartEnd` (`{-1, -1, 0}` everywhere, which
can never hit for a non-negative cost class) and is preserved by
`GetArcCost`. -/
def costCacheCoherent (m : RoutingCostModel) : Prop :=
  ∀ i, 0 ≤ (m.costCache i).costClass →
    (m.costCache i).cost =
      arcCostValue m i (m.costCache i).node (m.costCache i).costClass

/-- `arcCostValue` ignores the cache, so rewriting the cache leaves it
unchanged. -/
theorem arcCostValue_cache_irrelevant (m : RoutingCostModel)
    (cache : Int → CostCacheElement) (i j costClass : Int) :
    arcCostValue { m with costCache := cache } i j costClass =
      arcCostValue m i j costClass := rfl

/-- C3. On a coherent cache and a non-negative cost class, `GetArcCost`
returns the class evaluator's value on `(node(i), node(j))` when `i` is not
a vehicle start; the evaluator's value plus the fixed cost of `i`'s vehicle
when `i` is a start and `j` is not an end; and 0 when `i` is a start and
`j` is an end (empty route). -/
theorem getArcCost_characterisation (m : RoutingCostModel)
    (i j costClass : Int) (hcoh : costCacheCoherent m)
    (hclass : 0 ≤ costClass) :
    (RoutingIsStart m i = false →
      (GetArcCost m i j costClass).1 =
        m.costs costClass (m.indexToNode i) (m.indexToNode j)) ∧
    (RoutingIsStart m i = true → RoutingIsEnd m j = false →
      (GetArcCost m i j costClass).1 =
        m.costs costClass (m.indexToNode i) (m.indexToNode j) +
          m.fixedCosts (m.indexToVehicle i)) ∧
    (RoutingIsStart m i = true → RoutingIsEnd m j = true →
      (GetArcCost m i j costClass).1 = 0) := by
  have hval : (GetArcCost m i j costClass).1 = arcCostValue m i j costClass := by
    unfold GetArcCost
    rw [if_pos hclass]
    by_cases hhit : (m.costCache i).node = j ∧
        (m.costCache i).costClass = costClass
    · rw [if_pos hhit]
      have := hcoh i (hhit.2 ▸ hclass)
      rw [hhit.1, hhit.2] at this
      exact this
    · rw [if_neg hhit]
  refine ⟨?_, ?_, ?_⟩
  · intro hns
    rw [hval]
    unfold arcCostValue
    rw [if_pos (by simp [hns])]
  · intro hs hne
    rw [hval]
    unfold arcCostValue
    rw [if_neg (by simp [hs]), if_pos (by simp [hne])]
  · intro hs he
    rw [hval]
    unfold arcCostValue
    rw [if_neg (by simp [hs]), if_neg (by simp [he])]

/-- Witness for C3: a concrete 1-vehicle model (size 2: visit indices 0, 1;
end index 2) with an empty coherent cache; querying the non-start arc
(1, 0) with cost class 0 returns the evaluator value. -/
theorem getArcCost_characterisation_witness :
    (RoutingIsStart
        { size := 2, indexToNode := fun k => if k = 2 then 0 else k,
          indexToVehicle := fun k => if k = 0 ∨ k = 2 then 0 else -1,
          fixedCosts := fun _ => 7,
          costs := fun _ ni nj => 10 * ni + nj,
          costCache := fun _ => ⟨-1, -1, 0⟩ } 1 = false) ∧
    (GetArcCost
        { size := 2, indexToNode := fun k => if k = 2 then 0 else k,
          indexToVehicle := fun k => if k = 0 ∨ k = 2 then 0 else -1,
          fixedCosts := fun _ => 7,
          costs := fun _ ni nj => 10 * ni + nj,
          costCache := fun _ => ⟨-1, -1, 0⟩ } 1 0 0).1 = 10 := by
  refine ⟨by decide, ?_⟩
  have h := getArcCost_characterisation
    { size := 2, indexToNode := fun k => if k = 2 then 0 else k,
      indexToVehicle := fun k => if k = 0 ∨ k = 2 then 0 else -1,
      fixedCosts := fun _ => 7,
      costs := fun _ ni nj => 10 * ni + nj,
      costCache := fun _ => ⟨-1, -1, 0⟩ } 1 0 0
    (by intro i h; simp at h) (by decide)
  exact h.1 (by decide)

/-- The `RoutingCache` wrapper installed by `NewCachedCallback`: a dense
`cached_`/`cache_` pair over node pairs in front of a repeatable
`callback_`. -/
structure RoutingCacheState where
  cached : Int → Int → Bool
  cache : Int → Int → Int
  callback : Int → Int → Int

/-- `RoutingCache::Run(i, j)`: return the memoised value on a hit, else run
the callback, record the result and return it. -/
def routingCacheRun (s : RoutingCacheState) (i j : Int) :
    Int × RoutingCacheState :=
  if s.cached i j then (s.cache i j, s)
  else
    let cachedValue := s.callback i j
    (cachedValue,
     { s with
       cached := fun a b => if a = i ∧ b = j then true else s.cached a b
       cache := fun a b => if a = i ∧ b = j then cachedValue else s.cache a b })

/-- Coherence of a `RoutingCache`: every slot marked cached holds the
callback's value.  The constructor state (`cached_` all false) is coherent. -/
def routingCacheCoherent (s : RoutingCacheState) : Prop :=
  ∀ i j, s.cached i j = true → s.cache i j = s.callback i j

/-- C4. The arc-cost caches are observationally transparent. On a coherent
state, (a) `GetArcCost` returns exactly the value the cache-free computation
(`arcCostValue`, which calls the evaluator directly) produces, and leaves a
coherent state, so any two queries with identical `(i, j, cost_class)`
return that same value; and (b) `RoutingCache::Run` returns exactly the
wrapped callback's value and leaves a coherent state. -/
theorem arcCost_caches_transparent (m : RoutingCostModel)
    (i j costClass : Int) (s : RoutingCacheState)
    (hm : costCacheCoherent m) (hs : routingCacheCoherent s) :
    ((GetArcCost m i j costClass).1 =
        (if 0 ≤ costClass then arcCostValue m i j costClass else 0) ∧
      costCacheCoherent (GetArcCost m i j costClass).2 ∧
      (GetArcCost (GetArcCost m i j costClass).2 i j costClass).1 =
        (GetArcCost m i j costClass).1) ∧
    ((routingCacheRun s i j).1 = s.callback i j ∧
      routingCacheCoherent (routingCacheRun s i j).2 ∧
      (routingCacheRun (routingCacheRun s i j).2 i j).1 =
        (routingCacheRun s i j).1) := by
  have harc : ∀ m' : RoutingCostModel, costCacheCoherent m' → ∀ i' j' c',
      0 ≤ c' → (GetArcCost m' i' j' c').1 = arcCostValue m' i' j' c' := by
    intro m' hcoh i' j' c' hc
    unfold GetArcCost
    rw [if_pos hc]
    by_cases hhit : (m'.costCache i').node = j' ∧
        (m'.costCache i').costClass = c'
    · rw [if_pos hhit]
      have := hcoh i' (hhit.2 ▸ hc)
      rw [hhit.1, hhit.2] at this
      exact this
    · rw [if_neg hhit]
  constructor
  · by_cases hc : 0 ≤ costClass
    · have hfst := harc m hm i j costClass hc
      have hcoh2 : costCacheCoherent (GetArcCost m i j costClass).2 := by
        unfold GetArcCost
        rw [if_pos hc]
        by_cases hhit : (m.costCache i).node = j ∧
            (m.costCache i).costClass = costClass
        · rw [if_pos hhit]; exact hm
        · rw [if_neg hhit]
          intro k hk
          simp only at hk ⊢
          rw [arcCostValue_cache_irrelevant]
          by_cases hki : k = i
          · simp only [hki, if_pos rfl] at hk ⊢
            exact rfl
          · simp only [if_neg hki] at hk ⊢
            exact hm k hk
      refine ⟨by rw [hfst, if_pos hc], hcoh2, ?_⟩
      rw [harc _ hcoh2 i j costClass hc, hfst]
      have : arcCostValue (GetArcCost m i j costClass).2 i j costClass =
          arcCostValue m i j costClass := by
        unfold GetArcCost
        rw [if_pos hc]
        by_cases hhit : (m.costCache i).node = j ∧
            (m.costCache i).costClass = costClass
        · rw [if_pos hhit]
        · rw [if_neg hhit]
          exact arcCostValue_cache_irrelevant m _ i j costClass
      exact this
    · unfold GetArcCost
      rw [if_neg hc, if_neg hc, if_neg hc]
      exact ⟨rfl, hm, rfl⟩
  · have hrun : ∀ s' : RoutingCacheState, routingCacheCoherent s' →
        (routingCacheRun s' i j).1 = s'.callback i j := by
      intro s' hcoh
      unfold routingCacheRun
      by_cases hhit : s'.cached i j = true
      · rw [if_pos hhit]; exact hcoh i j hhit
      · rw [if_neg hhit]
    have hcoh2 : routingCacheCoherent (routingCacheRun s i j).2 := by
      unfold routingCacheRun
      by_cases hhit : s.cached i j = true
      · rw [if_pos hhit]; exact hs
      · rw [if_neg hhit]
        intro a b hab
        simp only at hab ⊢
        by_cases h : a = i ∧ b = j
        · simp only [if_pos h]
          rw [h.1, h.2]
        · simp only [if_neg h] at hab ⊢
          exact hs a b hab
    have hcb : (routingCacheRun s i j).2.callback = s.callback := by
      unfold routingCacheRun
      by_cases hhit : s.cached i j = true
      · rw [if_pos hhit]
      · rw [if_neg hhit]
    refine ⟨hrun s hs, hcoh2, ?_⟩
    rw [hrun _ hcoh2, hrun s hs, hcb]

/-- Witness for C4 on concrete coherent (empty) caches: the single-slot
cache and the `RoutingCache` both return the evaluator's value twice. -/
theorem arcCost_caches_transparent_witness :
    (GetArcCost
        { size := 2, indexToNode := fun k => if k = 2 then 0 else k,
          indexToVehicle := fun k => if k = 0 ∨ k = 2 then 0 else -1,
          fixedCosts := fun _ => 7,
          costs := fun _ ni nj => 10 * ni + nj,
          costCache := fun _ => ⟨-1, -1, 0⟩ } 1 0 0).1 =
      (if (0 : Int) ≤ 0 then
        arcCostValue
          { size := 2, indexToNode := fun k => if k = 2 then 0 else k,
            indexToVehicle := fun k => if k = 0 ∨ k = 2 then 0 else -1,
            fixedCosts := fun _ => 7,
            costs := fun _ ni nj => 10 * ni + nj,
            costCache := fun _ => ⟨-1, -1, 0⟩ } 1 0 0 else 0) ∧
    (routingCacheRun
        { cached := fun _ _ => false, cache := fun _ _ => 0,
          callback := fun a b => a + 2 * b } 1 0).1 =
      (1 : Int) + 2 * 0 :=
  ⟨((arcCost_caches_transparent
      { size := 2, indexToNode := fun k => if k = 2 then 0 else k,
        indexToVehicle := fun k => if k = 0 ∨ k = 2 then 0 else -1,
        fixedCosts := fun _ => 7,
        costs := fun _ ni nj => 10 * ni + nj,
        costCache := fun _ => ⟨-1, -1, 0⟩ } 1 0 0
      { cached := fun _ _ => false, cache := fun _ _ => 0,
        callback := fun a b => a + 2 * b }
      (by intro k h; simp at h)
      (by intro a b h; simp at h)).1).1,
   ((arcCost_caches_transparent
      { size := 2, indexToNode := fun k => if k = 2 then 0 else k,
        indexToVehicle := fun k => if k = 0 ∨ k = 2 then 0 else -1,
        fixedCosts := fun _ => 7,
        costs := fun _ ni nj => 10 * ni + nj,
        costCache := fun _ => ⟨-1, -1, 0⟩ } 1 0 0
      { cached := fun _ _ => false, cache := fun _ _ => 0,
        callback := fun a b => a + 2 * b }
      (by intro k h; simp at h)
      (by intro a b h; simp at h)).2).1⟩

/-- The read-only routing-model context used by
`NodeDisjunctionFilter::Accept`: disjunction membership of variable
indices, disjunction penalties, and the cost variable's bounds. -/
structure NodeDisjunctionFilterModel where
  getDisjunctionIndex : Int → Option Nat  -- GetDisjunctionIndexFromVariableIndex
  disjunctionPenalty : Nat → Int          -- GetDisjunctionPenalty
  costVarMin : Int
  costVarMax : Int

/-- The synchronized state of a `NodeDisjunctionFilter`. -/
structure NodeDisjunctionFilterState where
  value : Int → Int                -- Value(index) of the last synchronized solution
  activePerDisjunction : Nat → Int -- active_per_disjunction_
  penaltyValue : Int               -- penalty_value_
  currentObjectiveValue : Int      -- current_objective_value_

/-- One element of the delta's `IntVarContainer` whose variable `FindIndex`
resolves: its variable index and its new `[Min(), Max()]` domain.
(Elements whose variable is not one of the filter's vars are skipped by
`FindIndex` and therefore simply absent from this list.) -/
structure DeltaElement where
  idx : Int
  min : Int
  max : Int
deriving Repr, DecidableEq

/-- `LookupOrInsert(&map, key, 0)` followed by an in-place update: modify
the entry of `k` if present, else append `(k, f 0)`. -/
def updateAssoc (l : List (Nat × Int)) (k : Nat) (f : Int → Int) :
    List (Nat × Int) :=
  match l with
  | [] => [(k, f 0)]
  | (k', v) :: rest =>
      if k' = k then (k', f v) :: rest else (k', v) :: updateAssoc rest k f

/-- The first loop of `NodeDisjunctionFilter::Accept`: classify each delta
element of a disjunction member as inactive→active (`+1`) or
active→inactive (`-1`) in `disjunction_active_deltas`, and record whether
any such element has a non-singleton domain (`lns_detected`). -/
def classifyDeltaAux (mo : NodeDisjunctionFilterModel)
    (st : NodeDisjunctionFilterState) :
    List DeltaElement → List (Nat × Int) → Bool → List (Nat × Int) × Bool
  | [], acc, lns => (acc, lns)
  | e :: rest, acc, lns =>
    match mo.getDisjunctionIndex e.idx with
    | none => classifyDeltaAux mo st rest acc lns
    | some d =>
      let wasInactive := decide (st.value e.idx = e.idx)
      let isInactive := decide (e.min ≤ e.idx) && decide (e.idx ≤ e.max)
      let lns' := lns || decide (e.min ≠ e.max)
      let acc' :=
        if wasInactive && !isInactive then updateAssoc acc d (fun v => v + 1)
        else if !wasInactive && isInactive then
          updateAssoc acc d (fun v => v - 1)
        else acc
      classifyDeltaAux mo st rest acc' lns'

/-- The second loop of `Accept`: walk `disjunction_active_deltas`, reject
(`none`) when a disjunction would exceed one active node, and — unless an
LNS move was detected — reject mandatory disjunctions losing their active
node and accumulate penalty changes into the objective value. -/
def checkDisjunctionDeltas (mo : NodeDisjunctionFilterModel)
    (st : NodeDisjunctionFilterState) (lns : Bool) :
    List (Nat × Int) → Int → Option Int
  | [], obj => some obj
  | (d, dl) :: rest, obj =>
    if st.activePerDisjunction d + dl > 1 then none
    else if lns = false then
      let penalty := mo.disjunctionPenalty d
      if dl < 0 then
        if penalty < 0 then none
        else checkDisjunctionDeltas mo st lns rest (obj + penalty)
      else if dl > 0 then checkDisjunctionDeltas mo st lns rest (obj - penalty)
      else checkDisjunctionDeltas mo st lns rest obj
    else checkDisjunctionDeltas mo st lns rest obj

/-- `NodeDisjunctionFilter::Accept(delta, deltadelta)`. -/
def nodeDisjunctionFilterAccept (mo : NodeDisjunctionFilterModel)
    (st : NodeDisjunctionFilterState) (delta : List DeltaElement) : Bool :=
  match checkDisjunctionDeltas mo st (classifyDeltaAux mo st delta [] false).2
      (classifyDeltaAux mo st delta [] false).1
      (st.currentObjectiveValue + st.penaltyValue) with
  | none => false
  | some newObjectiveValue =>
    if (classifyDeltaAux mo st delta [] false).2 then true
    else
      decide (newObjectiveValue ≤ mo.costVarMax) &&
        decide (mo.costVarMin ≤ newObjectiveValue)

/-- C1 (counterexample). An LNS delta element (non-singleton domain
`[2, 3]`) on the inactive node 0 of disjunction 0, whose other node is
already active: `Accept` classifies the element as `+1` active, reaches
`active_nodes = 2 > 1` and returns `false` before the LNS early accept —
refuting "accept unconditionally, regardless of how the per-disjunction
active counts would change". -/
theorem nodeDisjunctionFilter_lns_rejected :
    (∃ e ∈ [DeltaElement.mk 0 2 3], e.min ≠ e.max) ∧
    nodeDisjunctionFilterAccept
      { getDisjunctionIndex := fun i => if i = 0 ∨ i = 1 then some 0 else none,
        disjunctionPenalty := fun _ => 5,
        costVarMin := -1000, costVarMax := 1000 }
      { value := fun i => if i = 1 then 7 else i,
        activePerDisjunction := fun _ => 1,
        penaltyValue := 0, currentObjectiveValue := 0 }
      [DeltaElement.mk 0 2 3] = false := by
  constructor
  · exact ⟨DeltaElement.mk 0 2 3, by simp, by decide⟩
  · rfl

/-- When `lns` is `true`, `checkDisjunctionDeltas` succeeds (and leaves the
objective untouched) exactly when no disjunction's active count would
exceed one. -/
theorem checkDisjunctionDeltas_lns (mo : NodeDisjunctionFilterModel)
    (st : NodeDisjunctionFilterState) (deltas : List (Nat × Int)) (obj : Int) :
    checkDisjunctionDeltas mo st true deltas obj =
      (if ∀ p ∈ deltas, st.activePerDisjunction p.1 + p.2 ≤ 1 then some obj
       else none) := by
  induction deltas with
  | nil => simp [checkDisjunctionDeltas]
  | cons p rest ih =>
    obtain ⟨d, dl⟩ := p
    rw [checkDisjunctionDeltas]
    by_cases hd : st.activePerDisjunction d + dl > 1
    · rw [if_pos hd, if_neg]
      intro hall
      exact absurd (hall (d, dl) (List.mem_cons_self _ _)) (by simpa using hd)
    · rw [if_neg hd, if_neg (by simp : ¬ (true = false)), ih]
      by_cases hall : ∀ p ∈ rest, st.activePerDisjunction p.1 + p.2 ≤ 1
      · rw [if_pos hall, if_pos]
        intro q hq
        rcases List.mem_cons.mp hq with hq | hq
        · rw [hq]; exact not_lt.mp hd
        · exact hall q hq
      · rw [if_neg hall, if_neg]
        intro hcons
        exact hall fun q hq => hcons q (List.mem_cons_of_mem _ hq)

/-- C1 (amended). If some delta element belonging to a disjunction has a
non-singleton domain (LNS detected), `Accept` skips the penalty and
objective-bound checks, but still rejects when a disjunction's active count
would exceed one: it returns `true` iff every disjunction's updated active
count is at most one. -/
theorem nodeDisjunctionFilter_lns_accept_iff (mo : NodeDisjunctionFilterModel)
    (st : NodeDisjunctionFilterState) (delta : List DeltaElement)
    (hlns : (classifyDeltaAux mo st delta [] false).2 = true) :
    nodeDisjunctionFilterAccept mo st delta = true ↔
      ∀ p ∈ (classifyDeltaAux mo st delta [] false).1,
        st.activePerDisjunction p.1 + p.2 ≤ 1 := by
  unfold nodeDisjunctionFilterAccept
  rw [hlns, checkDisjunctionDeltas_lns]
  by_cases hall : ∀ p ∈ (classifyDeltaAux mo st delta [] false).1,
      st.activePerDisjunction p.1 + p.2 ≤ 1
  · rw [if_pos hall]
    simp only [hlns, if_pos rfl]
    exact ⟨fun _ => hall, fun _ => rfl⟩
  · rw [if_neg hall]
    simp only [Bool.false_eq_true, false_iff]
    exact hall

/-- Witness for C1's amended theorem: the same LNS delta as the
counterexample but with no node of the disjunction active yet; `Accept`
returns `true` and the count condition holds. -/
theorem nodeDisjunctionFilter_lns_accept_iff_witness :
    nodeDisjunctionFilterAccept
      { getDisjunctionIndex := fun i => if i = 0 ∨ i = 1 then some 0 else none,
        disjunctionPenalty := fun _ => 5,
        costVarMin := -1000, costVarMax := 1000 }
      { value := fun i => i,
        activePerDisjunction := fun _ => 0,
        penaltyValue := 0, currentObjectiveValue := 0 }
      [DeltaElement.mk 0 2 3] = true :=
  (nodeDisjunctionFilter_lns_accept_iff
    { getDisjunctionIndex := fun i => if i = 0 ∨ i = 1 then some 0 else none,
      disjunctionPenalty := fun _ => 5,
      costVarMin := -1000, costVarMax := 1000 }
    { value := fun i => i,
      activePerDisjunction := fun _ => 0,
      penaltyValue := 0, currentObjectiveValue := 0 }
    [DeltaElement.mk 0 2 3] rfl).mpr (by decide)

/-- The `Link` struct of the Savings builder.  Its `value` field is an
`int64` initialised from the `double` saving, so constructing a link
truncates the saving towards zero (C++ float-to-integer conversion). -/
structure SavingsLink where
  link : Nat × Nat
  value : Int
  vehicleClass : Nat
  startDepot : Nat
  endDepot : Nat
deriving Repr, DecidableEq

/-- C++ `double → int64` conversion: truncation towards zero.  The `double`
arithmetic itself is modelled exactly over `ℚ` (the savings of realistic
instances are exactly representable). -/
def ratTrunc (q : ℚ) : Int := if 0 ≤ q then ⌊q⌋ else ⌈q⌉

/-- The saving of the arc `(i, j)` for a vehicle class with start depot `s`
and end depot `e`:
`costs_[i][s] + costs_[e][j] - route_shape_parameter_ * costs_[i][j]`. -/
def savingsValue (costs : Nat → Nat → Int) (lam : ℚ) (s e i j : Nat) : ℚ :=
  (costs i s : ℚ) + (costs e j : ℚ) - lam * (costs i j : ℚ)

/-- `struct LinkSort`: `link1.value > link2.value`, i.e. sorting puts larger
values first; as a (non-strict) `le` for `mergeSort` this reads
`b.value ≤ a.value`. -/
def linkSortLE (a b : SavingsLink) : Bool := decide (b.value ≤ a.value)

/-- The fields of `struct VehicleClass` read by `CreateSavingsList`. -/
structure SavingsVehicleClass where
  startDepot : Nat
  endDepot : Nat
  classIndex : Nat
deriving Repr, DecidableEq

/-- The links built for one vehicle class by the double loop of
`SavingsBuilder::CreateSavingsList` (after `ModelSetup` filled
`neighbors_[node]` with all of `0 .. nodes_number_ - 1` in order): one link
per ordered pair `(node, neighbor)` with both ends distinct from the class's
start and end depots and from each other. -/
def classLinks (n : Nat) (costs : Nat → Nat → Int) (lam : ℚ)
    (vc : SavingsVehicleClass) : List SavingsLink :=
  (List.range n).flatMap (fun node =>
    (List.range n).filterMap (fun neighbor =>
      if node ≠ vc.startDepot ∧ node ≠ vc.endDepot ∧
          neighbor ≠ vc.startDepot ∧ neighbor ≠ vc.endDepot ∧
          node ≠ neighbor then
        some ⟨(node, neighbor),
              ratTrunc (savingsValue costs lam vc.startDepot vc.endDepot
                node neighbor),
              vc.classIndex, vc.startDepot, vc.endDepot⟩
      else none))

/-- `SavingsBuilder::CreateSavingsList`: append each class's links to
`savings_list_` and re-sort the whole list by descending value after every
class.  (`std::sort` with `LinkComparator` is modelled by `mergeSort` on the
flipped non-strict order; ties are unspecified in both.) -/
def CreateSavingsList (n : Nat) (costs : Nat → Nat → Int) (lam : ℚ) :
    List SavingsVehicleClass → List SavingsLink → List SavingsLink
  | [], savingsList => savingsList
  | vc :: rest, savingsList =>
      CreateSavingsList n costs lam rest
        ((savingsList ++ classLinks n costs lam vc).mergeSort linkSortLE)

theorem mem_classLinks (n : Nat) (costs : Nat → Nat → Int) (lam : ℚ)
    (vc : SavingsVehicleClass) (l : SavingsLink) :
    l ∈ classLinks n costs lam vc ↔
      ∃ i j, i < n ∧ j < n ∧ i ≠ vc.startDepot ∧ i ≠ vc.endDepot ∧
        j ≠ vc.startDepot ∧ j ≠ vc.endDepot ∧ i ≠ j ∧
        l = ⟨(i, j),
             ratTrunc (savingsValue costs lam vc.startDepot vc.endDepot i j),
             vc.classIndex, vc.startDepot, vc.endDepot⟩ := by
  unfold classLinks
  rw [List.mem_flatMap]
  constructor
  · rintro ⟨i, hi, hl⟩
    rw [List.mem_filterMap] at hl
    obtain ⟨j, hj, hlj⟩ := hl
    by_cases hc : i ≠ vc.startDepot ∧ i ≠ vc.endDepot ∧ j ≠ vc.startDepot ∧
        j ≠ vc.endDepot ∧ i ≠ j
    · rw [if_pos hc] at hlj
      obtain ⟨h1, h2, h3, h4, h5⟩ := hc
      exact ⟨i, j, List.mem_range.mp hi, List.mem_range.mp hj,
        h1, h2, h3, h4, h5, (Option.some_inj.mp hlj).symm⟩
    · rw [if_neg hc] at hlj
      exact absurd hlj (by simp)
  · rintro ⟨i, j, hi, hj, h1, h2, h3, h4, h5, hl⟩
    refine ⟨i, List.mem_range.mpr hi, ?_⟩
    rw [List.mem_filterMap]
    exact ⟨j, List.mem_range.mpr hj,
      by rw [if_pos ⟨h1, h2, h3, h4, h5⟩, hl]⟩

theorem createSavingsList_perm (n : Nat) (costs : Nat → Nat → Int) (lam : ℚ)
    (classes : List SavingsVehicleClass) (savingsList : List SavingsLink) :
    (CreateSavingsList n costs lam classes savingsList).Perm
      (savingsList ++ classes.flatMap (classLinks n costs lam)) := by
  induction classes generalizing savingsList with
  | nil => simp [CreateSavingsList]
  | cons vc rest ih =>
    rw [CreateSavingsList]
    refine ((ih _).trans ?_)
    rw [List.flatMap_cons, ← List.append_assoc]
    exact ((List.mergeSort_perm _ linkSortLE).append_right _)

theorem createSavingsList_sorted (n : Nat) (costs : Nat → Nat → Int)
    (lam : ℚ) (classes : List SavingsVehicleClass)
    (savingsList : List SavingsLink)
    (hacc : List.Pairwise (fun a b => b.value ≤ a.value) savingsList) :
    List.Pairwise (fun a b => b.value ≤ a.value)
      (CreateSavingsList n costs lam classes savingsList) := by
  induction classes generalizing savingsList with
  | nil => exact hacc
  | cons vc rest ih =>
    rw [CreateSavingsList]
    refine ih _ ?_
    have := @List.sorted_mergeSort _ linkSortLE
      (fun a b c hab hbc => by
        simp only [linkSortLE, decide_eq_true_eq] at *
        exact le_trans hbc hab)
      (fun a b => by
        simp only [linkSortLE, ← Bool.decide_or, decide_eq_true_eq]
        exact le_total b.value a.value)
      (savingsList ++ classLinks n costs lam vc)
    exact this.imp (fun h => by
      simpa only [linkSortLE, decide_eq_true_eq] using h)

/-- C8. For every vehicle class with start depot `s` and end depot `e`, the
Savings builder creates exactly one candidate link per ordered pair
`(i, j)` of distinct non-depot nodes, carrying the value
`c(i,s) + c(e,j) − λ·c(i,j)` (truncated to `int64`), and the final savings
list is ordered by descending value. -/
theorem savingsList_characterisation (n : Nat) (costs : Nat → Nat → Int)
    (lam : ℚ) (classes : List SavingsVehicleClass) :
    (CreateSavingsList n costs lam classes []).Perm
        (classes.flatMap (classLinks n costs lam)) ∧
    (∀ l, l ∈ CreateSavingsList n costs lam classes [] ↔
      ∃ vc ∈ classes, ∃ i j, i < n ∧ j < n ∧ i ≠ vc.startDepot ∧
        i ≠ vc.endDepot ∧ j ≠ vc.startDepot ∧ j ≠ vc.endDepot ∧ i ≠ j ∧
        l = ⟨(i, j),
             ratTrunc (savingsValue costs lam vc.startDepot vc.endDepot i j),
             vc.classIndex, vc.startDepot, vc.endDepot⟩) ∧
    List.Pairwise (fun a b => b.value ≤ a.value)
      (CreateSavingsList n costs lam classes []) := by
  refine ⟨by simpa using createSavingsList_perm n costs lam classes [], ?_,
    createSavingsList_sorted n costs lam classes [] (by simp)⟩
  intro l
  rw [(createSavingsList_perm n costs lam classes []).mem_iff]
  simp only [List.nil_append, List.mem_flatMap]
  constructor
  · rintro ⟨vc, hvc, hl⟩
    exact ⟨vc, hvc, (mem_classLinks n costs lam vc l).mp hl⟩
  · rintro ⟨vc, hvc, hl⟩
    exact ⟨vc, hvc, (mem_classLinks n costs lam vc l).mpr hl⟩

/-- The parts of a closed `RoutingModel` read by `RoutesToAssignment` and
`AssignmentToRoutes`. -/
structure RoutesModel where
  closed : Bool                       -- closed_
  nodes : Int                         -- nodes()
  vehicles : Nat                      -- vehicles_
  size : Nat                          -- Size()
  nodeToIndex : Int → Int             -- NodeToIndex
  indexToNode : Int → Int             -- IndexToNode
  starts : Nat → Int                  -- Start(vehicle)
  ends : Nat → Int                    -- End(vehicle)
  activeMax : Int → Int               -- ActiveVar(index)->Max()
  vehicleVarContains : Int → Nat → Bool  -- VehicleVar(index)->Contains(v)

/-- The mutable state threaded through `RoutesToAssignment`: the
`visited_indices` hash set and the next-variable values written into the
assignment (`none` = the variable is not in the assignment). -/
structure RtaState where
  visited : List Int
  nxt : Int → Option Int

/-- The inner loop of `RoutesToAssignment` over one route's nodes: validate
each node, translate it to its index, check activity / duplication /
vehicle-variable membership, and write `next[from_index] = to_index`,
advancing `from_index`.  Returns the final `from_index` with the state, or
`none` when the C++ code logs an error and returns `false`. -/
def setRouteNexts (m : RoutesModel) (vehicle : Nat) (ignoreInactive : Bool) :
    List Int → Int → RtaState → Option (Int × RtaState)
  | [], fromIndex, s => some (fromIndex, s)
  | toNode :: rest, fromIndex, s =>
    if toNode < 0 ∨ m.nodes ≤ toNode then none
    else
      let toIndex := m.nodeToIndex toNode
      if toIndex < 0 ∨ (m.size : Int) ≤ toIndex then none
      else if m.activeMax toIndex = 0 then
        if ignoreInactive then
          setRouteNexts m vehicle ignoreInactive rest fromIndex s
        else none
      else if toIndex ∈ s.visited then none
      else if ¬ m.vehicleVarContains toIndex vehicle then none
      else
        setRouteNexts m vehicle ignoreInactive rest toIndex
          { visited := toIndex :: s.visited
            nxt := fun k => if k = fromIndex then some toIndex else s.nxt k }

/-- The outer loop of `RoutesToAssignment` over the given routes: insert the
vehicle's start into `visited_indices`, write the route's next chain, and —
when `close_routes` — close the chain onto the vehicle's end. -/
def routesLoop (m : RoutesModel) (ignoreInactive closeRoutes : Bool) :
    List (List Int) → Nat → RtaState → Option RtaState
  | [], _, s => some s
  | route :: rest, vehicle, s =>
    let startIndex := m.starts vehicle
    if startIndex ∈ s.visited then none
    else
      match setRouteNexts m vehicle ignoreInactive route startIndex
          { s with visited := startIndex :: s.visited } with
      | none => none
      | some (lastIndex, s') =>
        routesLoop m ignoreInactive closeRoutes rest (vehicle + 1)
          (if closeRoutes then
            { s' with nxt := fun k =>
                if k = lastIndex then some (m.ends vehicle) else s'.nxt k }
           else s')

/-- The "do not use the remaining vehicles" loop of `RoutesToAssignment`:
insert each remaining vehicle's start into `visited_indices` and, when
`close_routes`, point it at the vehicle's end. -/
def unusedVehiclesLoop (m : RoutesModel) (closeRoutes : Bool) :
    List Nat → RtaState → Option RtaState
  | [], s => some s
  | v :: rest, s =>
    let startIndex := m.starts v
    if startIndex ∈ s.visited then none
    else
      unusedVehiclesLoop m closeRoutes rest
        { visited := startIndex :: s.visited
          nxt := if closeRoutes then
              fun k => if k = startIndex then some (m.ends v) else s.nxt k
            else s.nxt }

/-- The final `close_routes` pass of `RoutesToAssignment`: every index in
`[0, Size())` not in `visited_indices` is deactivated by pointing it at
itself. -/
def deactivateUnvisited (size : Nat) (visited : List Int)
    (nxt : Int → Option Int) : Int → Option Int :=
  fun k =>
    if 0 ≤ k ∧ k < (size : Int) ∧ k ∉ visited then some k else nxt k

/-- `RoutingModel::RoutesToAssignment(routes, ignore_inactive_nodes,
close_routes, assignment)` starting from an empty assignment: the produced
next-variable values, or `none` when the C++ code returns `false`. -/
def RoutesToAssignment (m : RoutesModel) (routes : List (List Int))
    (ignoreInactive closeRoutes : Bool) : Option (Int → Option Int) :=
  if m.closed = false then none
  else if m.vehicles < routes.length then none
  else
    match routesLoop m ignoreInactive closeRoutes routes 0
        ⟨[], fun _ => none⟩ with
    | none => none
    | some s =>
      match unusedVehiclesLoop m closeRoutes
          (List.range' routes.length (m.vehicles - routes.length)) s with
      | none => none
      | some s' =>
        some (if closeRoutes then deactivateUnvisited m.size s'.visited s'.nxt
              else s'.nxt)

/-- The per-vehicle walk of `AssignmentToRoutes`: follow next values until a
vehicle-end index (`IsEnd`, i.e. `index ≥ Size()`), translating each visited
index back to its node.  The fuel models the
`CHECK_LE(num_visited, model_size)` cycle guard (`none` = CHECK failure),
and a missing next value models the `CHECK(Contains/Bound)` failures. -/
def followRoute (m : RoutesModel) (nxt : Int → Option Int) :
    Nat → Int → Option (List Int)
  | 0, current => if (m.size : Int) ≤ current then some [] else none
  | fuel + 1, current =>
    if (m.size : Int) ≤ current then some []
    else
      match nxt current with
      | none => none
      | some nextIndex =>
        match followRoute m nxt fuel nextIndex with
        | none => none
        | some rest => some (m.indexToNode current :: rest)

/-- The vehicle loop of `AssignmentToRoutes`. -/
def assignRoutesLoop (m : RoutesModel) (nxt : Int → Option Int) :
    List Nat → Option (List (List Int))
  | [] => some []
  | v :: rest =>
    match nxt (m.starts v) with
    | none => none
    | some first =>
      match followRoute m nxt m.size first with
      | none => none
      | some route =>
        match assignRoutesLoop m nxt rest with
        | none => none
        | some routes => some (route :: routes)

/-- `RoutingModel::AssignmentToRoutes(assignment, routes)`: one route per
vehicle in vehicle order (`none` when one of its `CHECK`s would fire). -/
def AssignmentToRoutes (m : RoutesModel) (nxt : Int → Option Int) :
    Option (List (List Int)) :=
  assignRoutesLoop m nxt (List.range m.vehicles)

/-- A chain of next values only reads the keys before the last element, so
it transfers between next maps that agree there. -/
theorem nxtChain_congr (f g : Int → Option Int) :
    ∀ (l : List Int), (∀ k ∈ l.dropLast, g k = f k) →
    List.Chain' (fun a b => f a = some b) l →
    List.Chain' (fun a b => g a = some b) l := by
  intro l
  induction l with
  | nil => intro _ _; exact List.chain'_nil
  | cons a l ih =>
    intro hagree hchain
    cases l with
    | nil => exact List.chain'_singleton a
    | cons b t =>
      rw [List.chain'_cons] at hchain ⊢
      have hd : (a :: b :: t).dropLast = a :: (b :: t).dropLast := rfl
      refine ⟨?_, ih ?_ hchain.2⟩
      · rw [hagree a (by rw [hd]; exact List.mem_cons_self a _)]
        exact hchain.1
      · intro k hk
        exact hagree k (by rw [hd]; exact List.mem_cons_of_mem a hk)

theorem head?_append_singleton (l : List Int) (e : Int) :
    (l ++ [e]).head? = some (l.headD e) := by
  cases l <;> rfl

/-- A list of distinct integers inside `[0, n)` has at most `n` elements. -/
theorem nodup_length_le (ixs : List Int) (n : Nat)
    (hmem : ∀ i ∈ ixs, 0 ≤ i ∧ i < (n : Int)) (hnd : ixs.Nodup) :
    ixs.length ≤ n := by
  have hsub : ixs.toFinset ⊆ Finset.Ico (0 : Int) n := by
    intro i hi
    rw [List.mem_toFinset] at hi
    rw [Finset.mem_Ico]
    exact hmem i hi
  have := Finset.card_le_card hsub
  rw [List.toFinset_card_of_nodup hnd, Int.card_Ico] at this
  simpa using this

/-- Following next values along a chain of in-range indices that finishes at
an end index recovers exactly the nodes of those indices, provided the fuel
covers the chain length. -/
theorem followRoute_of_chain (m : RoutesModel) (nxt : Int → Option Int) :
    ∀ (ixs : List Int) (fuel : Nat) (endIdx : Int),
    ixs.length ≤ fuel →
    (∀ i ∈ ixs, 0 ≤ i ∧ i < (m.size : Int)) →
    (m.size : Int) ≤ endIdx →
    List.Chain' (fun a b => nxt a = some b) (ixs ++ [endIdx]) →
    followRoute m nxt fuel (ixs.headD endIdx) = some (ixs.map m.indexToNode) := by
  intro ixs
  induction ixs with
  | nil =>
    intro fuel endIdx _ _ hend _
    rw [List.headD_nil]
    cases fuel with
    | zero => rw [followRoute, if_pos hend]; rfl
    | succ f => rw [followRoute, if_pos hend]; rfl
  | cons i rest ih =>
    intro fuel endIdx hlen hmem hend hchain
    obtain ⟨fuel, rfl⟩ : ∃ f, fuel = f + 1 := by
      cases fuel with
      | zero => simp at hlen
      | succ f => exact ⟨f, rfl⟩
    have hi := hmem i (List.mem_cons_self i rest)
    have hchain' : List.Chain' (fun a b => nxt a = some b)
        (i :: (rest ++ [endIdx])) := by
      simpa using hchain
    rw [List.chain'_cons'] at hchain'
    have hfirst : nxt i = some (rest.headD endIdx) := by
      have h1 := hchain'.1 (rest.headD endIdx)
      rw [head?_append_singleton] at h1
      exact h1 rfl
    have hlen' : rest.length ≤ fuel := by
      simp only [List.length_cons] at hlen
      omega
    have hrec := ih fuel endIdx hlen'
      (fun j hj => hmem j (List.mem_cons_of_mem i hj)) hend hchain'.2
    rw [List.headD_cons, followRoute, if_neg (by omega), hfirst]
    simp only [hrec, List.map_cons]

/-- Postcondition of the inner `RoutesToAssignment` loop (with
`ignore_inactive_nodes` false): on success the route's nodes are valid and
map to fresh in-range indices, the visited set grows by exactly those
indices, the written next values chain `from_index` through them in order,
the returned index is the chain's last element, and no other key of the
assignment is touched. -/
theorem setRouteNexts_spec (m : RoutesModel) (vehicle : Nat)
    (route : List Int) :
    ∀ (fromIndex : Int) (s : RtaState) (lastIndex : Int) (s' : RtaState),
    setRouteNexts m vehicle false route fromIndex s = some (lastIndex, s') →
    fromIndex ∈ s.visited →
    ∃ ixs : List Int,
      ixs = route.map m.nodeToIndex ∧
      (∀ node ∈ route, 0 ≤ node ∧ node < m.nodes) ∧
      (∀ i ∈ ixs, (0 ≤ i ∧ i < (m.size : Int)) ∧ i ∉ s.visited) ∧
      ixs.Nodup ∧
      s'.visited = ixs.reverse ++ s.visited ∧
      List.Chain' (fun a b => s'.nxt a = some b) (fromIndex :: ixs) ∧
      lastIndex = (fromIndex :: ixs).getLast (by simp) ∧
      (∀ k, k ∉ (fromIndex :: ixs).dropLast → s'.nxt k = s.nxt k) := by
  induction route with
  | nil =>
    intro fromIndex s lastIndex s' h _
    rw [setRouteNexts] at h
    simp only [Option.some.injEq, Prod.mk.injEq] at h
    obtain ⟨rfl, rfl⟩ := h
    exact ⟨[], rfl, by simp, by simp, List.nodup_nil, by simp,
      List.chain'_singleton _, rfl, fun k _ => rfl⟩
  | cons toNode rest ih =>
    intro fromIndex s lastIndex s' h hfrom
    simp only [setRouteNexts] at h
    by_cases c1 : toNode < 0 ∨ m.nodes ≤ toNode
    · rw [if_pos c1] at h; exact absurd h (by simp)
    rw [if_neg c1] at h
    by_cases c2 : m.nodeToIndex toNode < 0 ∨
        (m.size : Int) ≤ m.nodeToIndex toNode
    · rw [if_pos c2] at h; exact absurd h (by simp)
    rw [if_neg c2] at h
    by_cases c3 : m.activeMax (m.nodeToIndex toNode) = 0
    · rw [if_pos c3] at h; simp at h
    rw [if_neg c3] at h
    by_cases c4 : m.nodeToIndex toNode ∈ s.visited
    · rw [if_pos c4] at h; exact absurd h (by simp)
    rw [if_neg c4] at h
    by_cases c5 : ¬ m.vehicleVarContains (m.nodeToIndex toNode) vehicle = true
    · rw [if_pos c5] at h; exact absurd h (by simp)
    rw [if_neg c5] at h
    obtain ⟨ixs', i1, i2, i3, i4, i5, i6, i7, i8⟩ :=
      ih (m.nodeToIndex toNode)
        { visited := m.nodeToIndex toNode :: s.visited
          nxt := fun k =>
            if k = fromIndex then some (m.nodeToIndex toNode) else s.nxt k }
        lastIndex s' h (List.mem_cons_self _ _)
    have hfreshFrom : fromIndex ∉ m.nodeToIndex toNode :: ixs' := by
      intro hmem
      rcases List.mem_cons.mp hmem with heq | hmem'
      · exact c4 (heq ▸ hfrom)
      · exact (i3 fromIndex hmem').2 (List.mem_cons_of_mem _ hfrom)
    refine ⟨m.nodeToIndex toNode :: ixs', ?_, ?_, ?_, ?_, ?_, ?_, ?_, ?_⟩
    · rw [List.map_cons, ← i1]
    · intro node hnode
      rcases List.mem_cons.mp hnode with rfl | hnode'
      · push_neg at c1; omega
      · exact i2 node hnode'
    · intro i hi
      rcases List.mem_cons.mp hi with rfl | hi'
      · push_neg at c2
        exact ⟨⟨c2.1, c2.2⟩, c4⟩
      · have := i3 i hi'
        exact ⟨this.1, fun hmem => this.2 (List.mem_cons_of_mem _ hmem)⟩
    · rw [List.nodup_cons]
      refine ⟨fun hmem => ?_, i4⟩
      exact (i3 _ hmem).2 (List.mem_cons_self _ _)
    · rw [i5]
      simp [List.reverse_cons]
    · rw [List.chain'_cons]
      refine ⟨?_, i6⟩
      have hskip : fromIndex ∉ (m.nodeToIndex toNode :: ixs').dropLast :=
        fun hmem => hfreshFrom ((List.dropLast_sublist _).subset hmem)
      rw [i8 fromIndex hskip]
      simp
    · rw [List.getLast_cons (by simp)]
      exact i7
    · intro k hk
      have hk1 : k ≠ fromIndex := by
        intro heq
        apply hk
        rw [List.dropLast_cons₂, heq]
        exact List.mem_cons_self _ _
      have hk2 : k ∉ (m.nodeToIndex toNode :: ixs').dropLast := by
        intro hmem
        exact hk (by
          rw [List.dropLast_cons₂]
          exact List.mem_cons_of_mem _ hmem)
      rw [i8 k hk2]
      simp [hk1]

/-- Postcondition of the vehicle loop of `RoutesToAssignment` (with
`ignore_inactive_nodes` false and `close_routes` true): visited indices
only grow, next values of previously visited indices are untouched, and for
each processed route the final state chains the vehicle's start through the
route's indices onto the vehicle's end. -/
theorem routesLoop_spec (m : RoutesModel) :
    ∀ (routes : List (List Int)) (vehicle : Nat) (s s' : RtaState),
    routesLoop m false true routes vehicle s = some s' →
    (∀ k ∈ s.visited, k ∈ s'.visited) ∧
    (∀ k ∈ s.visited, s'.nxt k = s.nxt k) ∧
    (∀ t (ht : t < routes.length), ∃ ixs : List Int,
      ixs = (routes.get ⟨t, ht⟩).map m.nodeToIndex ∧
      (∀ node ∈ routes.get ⟨t, ht⟩, 0 ≤ node ∧ node < m.nodes) ∧
      (∀ i ∈ ixs, 0 ≤ i ∧ i < (m.size : Int)) ∧
      ixs.Nodup ∧
      (∀ i ∈ m.starts (vehicle + t) :: ixs, i ∈ s'.visited) ∧
      List.Chain' (fun a b => s'.nxt a = some b)
        ((m.starts (vehicle + t) :: ixs) ++ [m.ends (vehicle + t)])) := by
  intro routes
  induction routes with
  | nil =>
    intro vehicle s s' h
    rw [routesLoop] at h
    simp only [Option.some.injEq] at h
    subst h
    exact ⟨fun k hk => hk, fun k _ => rfl, fun t ht => absurd ht (by simp)⟩
  | cons route rest ih =>
    intro vehicle s s' h
    simp only [routesLoop] at h
    by_cases cs : m.starts vehicle ∈ s.visited
    · rw [if_pos cs] at h; exact absurd h (by simp)
    rw [if_neg cs] at h
    cases hset : setRouteNexts m vehicle false route (m.starts vehicle)
        { visited := m.starts vehicle :: s.visited, nxt := s.nxt } with
    | none => rw [hset] at h; exact absurd h (by simp)
    | some p =>
      obtain ⟨lastIndex, s₂⟩ := p
      rw [hset] at h
      simp only [if_true] at h
      obtain ⟨ixs, j1, j2, j3, j4, j5, j6, j7, j8⟩ :=
        setRouteNexts_spec m vehicle route (m.starts vehicle)
          { visited := m.starts vehicle :: s.visited, nxt := s.nxt }
          lastIndex s₂ hset (List.mem_cons_self _ _)
      obtain ⟨p1, p2, p3⟩ := ih (vehicle + 1)
        { s₂ with nxt := fun k =>
            if k = lastIndex then some (m.ends vehicle) else s₂.nxt k } s' h
      have hfreshCons : ∀ i ∈ m.starts vehicle :: ixs, i ∉ s.visited := by
        intro i hi
        rcases List.mem_cons.mp hi with rfl | hi'
        · exact cs
        · intro hmem
          exact (j3 i hi').2 (List.mem_cons_of_mem _ hmem)
      have hnodupCons : (m.starts vehicle :: ixs).Nodup := by
        rw [List.nodup_cons]
        exact ⟨fun hmem => (j3 _ hmem).2 (List.mem_cons_self _ _), j4⟩
      have hmem₂ : ∀ i ∈ m.starts vehicle :: ixs, i ∈ s₂.visited := by
        intro i hi
        rw [j5]
        rcases List.mem_cons.mp hi with rfl | hi'
        · exact List.mem_append_right _ (List.mem_cons_self _ _)
        · exact List.mem_append_left _ (by rwa [List.mem_reverse])
      have hlastNotDrop : lastIndex ∉ (m.starts vehicle :: ixs).dropLast := by
        have hnd := hnodupCons
        rw [← @List.dropLast_append_getLast _
          (m.starts vehicle :: ixs) (by simp), List.nodup_append] at hnd
        intro hmem
        exact hnd.2.2 hmem (by rw [j7]; exact List.mem_singleton_self _)
      have hlastMem : lastIndex ∈ m.starts vehicle :: ixs := by
        rw [j7]; exact List.getLast_mem _
      refine ⟨?_, ?_, ?_⟩
      · intro k hk
        apply p1
        show k ∈ s₂.visited
        rw [j5]
        exact List.mem_append_right _ (List.mem_cons_of_mem _ hk)
      · intro k hk
        have hks₂ : k ∈ s₂.visited := by
          rw [j5]
          exact List.mem_append_right _ (List.mem_cons_of_mem _ hk)
        have h1 := p2 k hks₂
        have hkne : k ≠ lastIndex := fun heq =>
          hfreshCons lastIndex hlastMem (heq ▸ hk)
        have h2 : s₂.nxt k = s.nxt k :=
          j8 k (fun hmem =>
            hfreshCons k ((List.dropLast_sublist _).subset hmem) hk)
        rw [h1]
        show (if k = lastIndex then some (m.ends vehicle) else s₂.nxt k) =
          s.nxt k
        rw [if_neg hkne, h2]
      · intro t ht
        cases t with
        | zero =>
          refine ⟨ixs, by simpa using j1, by simpa using j2,
            fun i hi => (j3 i hi).1, j4, ?_, ?_⟩
          · intro i hi
            exact p1 _ (hmem₂ i hi)
          · have chain₃ : List.Chain'
                (fun a b =>
                  (if a = lastIndex then some (m.ends vehicle)
                   else s₂.nxt a) = some b)
                ((m.starts vehicle :: ixs) ++ [m.ends vehicle]) := by
              apply List.Chain'.append
              · refine nxtChain_congr _ _ _ ?_ j6
                intro k hk
                have hkne : k ≠ lastIndex := fun heq => hlastNotDrop (heq ▸ hk)
                rw [if_neg hkne]
              · exact List.chain'_singleton _
              · intro x hx y hy
                rw [List.getLast?_eq_getLast _ (by simp)] at hx
                simp only [Option.mem_def, Option.some.injEq] at hx
                simp only [List.head?_cons, Option.mem_def,
                  Option.some.injEq] at hy
                subst hx
                subst hy
                rw [if_pos j7.symm]
            refine nxtChain_congr _ _ _ ?_ chain₃
            intro k hk
            rw [List.dropLast_concat] at hk
            exact p2 k (hmem₂ k hk)
        | succ t =>
          have ht' : t < rest.length := by simpa using ht
          obtain ⟨ixs', q1, q2, q3, q4, q5, q6⟩ := p3 t ht'
          have hveq : vehicle + 1 + t = vehicle + (t + 1) := by omega
          rw [hveq] at q5 q6
          exact ⟨ixs', q1, q2, q3, q4, q5, q6⟩

/-- Postcondition of the remaining-vehicles loop (with `close_routes` true):
visited indices grow, previously visited indices keep their next values, and
each remaining vehicle's start points at its end. -/
theorem unusedVehiclesLoop_spec (m : RoutesModel) :
    ∀ (vs : List Nat) (s s' : RtaState),
    unusedVehiclesLoop m true vs s = some s' →
    (∀ k ∈ s.visited, k ∈ s'.visited) ∧
    (∀ k ∈ s.visited, s'.nxt k = s.nxt k) ∧
    (∀ v ∈ vs, m.starts v ∈ s'.visited ∧
      s'.nxt (m.starts v) = some (m.ends v)) := by
  intro vs
  induction vs with
  | nil =>
    intro s s' h
    rw [unusedVehiclesLoop] at h
    simp only [Option.some.injEq] at h
    subst h
    exact ⟨fun k hk => hk, fun k _ => rfl, fun v hv => absurd hv (by simp)⟩
  | cons v rest ih =>
    intro s s' h
    simp only [unusedVehiclesLoop] at h
    by_cases cs : m.starts v ∈ s.visited
    · rw [if_pos cs] at h; exact absurd h (by simp)
    rw [if_neg cs] at h
    simp only [if_true] at h
    obtain ⟨p1, p2, p3⟩ := ih _ _ h
    have hmem₁ : m.starts v ∈
        (m.starts v :: s.visited : List Int) := List.mem_cons_self _ _
    refine ⟨?_, ?_, ?_⟩
    · intro k hk
      exact p1 k (List.mem_cons_of_mem _ hk)
    · intro k hk
      have := p2 k (List.mem_cons_of_mem _ hk)
      rw [this]
      show (if k = m.starts v then some (m.ends v) else s.nxt k) = s.nxt k
      have hkne : k ≠ m.starts v := by
        intro heq
        rw [heq] at hk
        exact cs hk
      rw [if_neg hkne]
    · intro w hw
      rcases List.mem_cons.mp hw with rfl | hw'
      · refine ⟨p1 _ hmem₁, ?_⟩
        have := p2 _ hmem₁
        rw [this]
        show (if m.starts w = m.starts w then some (m.ends w) else _) = _
        rw [if_pos rfl]
      · exact p3 w hw'

theorem followRoute_end (m : RoutesModel) (nxt : Int → Option Int)
    (fuel : Nat) (e : Int) (he : (m.size : Int) ≤ e) :
    followRoute m nxt fuel e = some [] := by
  cases fuel with
  | zero => rw [followRoute, if_pos he]
  | succ f => rw [followRoute, if_pos he]

theorem assignRoutesLoop_spec (m : RoutesModel) (nxt : Int → Option Int)
    (f : Nat → List Int) :
    ∀ (vs : List Nat),
    (∀ v ∈ vs, ∃ first, nxt (m.starts v) = some first ∧
      followRoute m nxt m.size first = some (f v)) →
    assignRoutesLoop m nxt vs = some (vs.map f) := by
  intro vs
  induction vs with
  | nil => intro _; rfl
  | cons v rest ih =>
    intro hall
    obtain ⟨first, h1, h2⟩ := hall v (List.mem_cons_self _ _)
    rw [assignRoutesLoop, h1]
    simp only [h2, ih (fun w hw => hall w (List.mem_cons_of_mem _ hw)),
      List.map_cons]

theorem map_range_get (l : List (List Int)) :
    (List.range l.length).map
      (fun v => if h : v < l.length then l.get ⟨v, h⟩ else []) = l := by
  apply List.ext_getElem
  · simp
  · intro n h1 h2
    simp only [List.length_map, List.length_range] at h1
    simp [List.getElem_map, List.getElem_range, h1]

theorem map_range'_const (f : Nat → List Int) :
    ∀ (n a : Nat), (∀ v, a ≤ v → f v = []) →
    (List.range' a n).map f = List.replicate n [] := by
  intro n
  induction n with
  | zero => intro a _; rfl
  | succ n ih =>
    intro a hf
    rw [List.range'_succ, List.map_cons, hf a le_rfl,
      ih (a + 1) (fun v hv => hf v (by omega)), List.replicate_succ]

/-- C6. Round trip: for every routes vector accepted by
`RoutesToAssignment` on a closed model (with `ignore_inactive_nodes` false
and `close_routes` true), `AssignmentToRoutes` applied to the produced
assignment yields the same vector again, padded with trailing empty routes
for the unused vehicles. -/
theorem routesToAssignment_roundtrip (m : RoutesModel)
    (routes : List (List Int)) (nxtMap : Int → Option Int)
    (hends : ∀ v, v < m.vehicles → (m.size : Int) ≤ m.ends v)
    (hinv : ∀ node : Int, 0 ≤ node → node < m.nodes →
      m.indexToNode (m.nodeToIndex node) = node)
    (hacc : RoutesToAssignment m routes false true = some nxtMap) :
    AssignmentToRoutes m nxtMap =
      some (routes ++ List.replicate (m.vehicles - routes.length) []) := by
  unfold RoutesToAssignment at hacc
  by_cases hcl : m.closed = false
  · rw [if_pos hcl] at hacc; exact absurd hacc (by simp)
  rw [if_neg hcl] at hacc
  by_cases hlen : m.vehicles < routes.length
  · rw [if_pos hlen] at hacc; exact absurd hacc (by simp)
  rw [if_neg hlen] at hacc
  cases h1 : routesLoop m false true routes 0 ⟨[], fun _ => none⟩ with
  | none => rw [h1] at hacc; exact absurd hacc (by simp)
  | some s =>
    rw [h1] at hacc
    simp only [] at hacc
    cases h2 : unusedVehiclesLoop m true
        (List.range' routes.length (m.vehicles - routes.length)) s with
    | none => rw [h2] at hacc; exact absurd hacc (by simp)
    | some s₂ =>
      rw [h2] at hacc
      simp only [if_true, Option.some.injEq] at hacc
      obtain ⟨p1, p2, p3⟩ := routesLoop_spec m routes 0 _ s h1
      obtain ⟨q1, q2, q3⟩ := unusedVehiclesLoop_spec m _ s s₂ h2
      have hN : ∀ k ∈ s₂.visited, nxtMap k = s₂.nxt k := by
        intro k hk
        rw [← hacc]
        unfold deactivateUnvisited
        rw [if_neg (by
          intro hcond
          exact hcond.2.2 hk)]
      have hNs : ∀ k ∈ s.visited, nxtMap k = s.nxt k := by
        intro k hk
        rw [hN k (q1 k hk)]
        exact q2 k hk
      unfold AssignmentToRoutes
      rw [assignRoutesLoop_spec m nxtMap
        (fun v => if h : v < routes.length then routes.get ⟨v, h⟩ else [])
        (List.range m.vehicles) ?_]
      · congr 1
        have hsplit : List.range m.vehicles =
            List.range' 0 routes.length ++
              List.range' routes.length (m.vehicles - routes.length) := by
          have happ := List.range'_append 0 routes.length
            (m.vehicles - routes.length) 1
          simp only [Nat.zero_add, Nat.one_mul] at happ
          rw [List.range_eq_range', happ]
          congr 1
          omega
        rw [hsplit, List.map_append, ← List.range_eq_range', map_range_get,
          map_range'_const _ _ _ (fun v hv => dif_neg (by omega))]
      · intro v hv
        rw [List.mem_range] at hv
        by_cases hvr : v < routes.length
        · obtain ⟨ixs, r1, r2, r3, r4, r5, r6⟩ := p3 v hvr
          rw [Nat.zero_add] at r5 r6
          have hchain₂ : List.Chain' (fun a b => s₂.nxt a = some b)
              ((m.starts v :: ixs) ++ [m.ends v]) := by
            refine nxtChain_congr _ _ _ ?_ r6
            intro k hk
            rw [List.dropLast_concat] at hk
            exact q2 k (r5 k hk)
          have hchainN : List.Chain' (fun a b => nxtMap a = some b)
              ((m.starts v :: ixs) ++ [m.ends v]) := by
            refine nxtChain_congr _ _ _ ?_ hchain₂
            intro k hk
            rw [List.dropLast_concat] at hk
            exact hN k (q1 k (r5 k hk))
          have hchainN' : List.Chain' (fun a b => nxtMap a = some b)
              (m.starts v :: (ixs ++ [m.ends v])) := by
            simpa using hchainN
          rw [List.chain'_cons'] at hchainN'
          refine ⟨ixs.headD (m.ends v), ?_, ?_⟩
          · have := hchainN'.1 (ixs.headD (m.ends v))
            rw [head?_append_singleton] at this
            exact this rfl
          · rw [followRoute_of_chain m nxtMap ixs m.size (m.ends v)
              (nodup_length_le ixs m.size r3 r4) r3 (hends v hv) hchainN'.2]
            show some (List.map m.indexToNode ixs) =
              some (if h : v < routes.length then routes.get ⟨v, h⟩ else [])
            rw [dif_pos hvr, r1, List.map_map]
            congr 1
            have : ∀ node ∈ routes.get ⟨v, hvr⟩,
                (m.indexToNode ∘ m.nodeToIndex) node = id node := by
              intro node hnode
              have hb := r2 node hnode
              exact hinv node hb.1 hb.2
            rw [List.map_congr_left this, List.map_id]
        · have hvmem : v ∈ List.range' routes.length
              (m.vehicles - routes.length) := by
            rw [List.mem_range'_1]
            refine ⟨?_, ?_⟩ <;> omega
          obtain ⟨hsv, hnv⟩ := q3 v hvmem
          refine ⟨m.ends v, ?_, ?_⟩
          · rw [hN _ hsv]
            exact hnv
          · rw [followRoute_end m nxtMap m.size (m.ends v) (hends v hv)]
            show some ([] : List Int) =
              some (if h : v < routes.length then routes.get ⟨v, h⟩ else [])
            rw [dif_neg hvr]

/-- A tiny concrete closed model for exercising the round trip: two nodes
(0 = depot, 1 = visit), one vehicle starting at index 0 and ending at
index 2. -/
def rtaWitnessModel : RoutesModel :=
  { closed := true
    nodes := 2
    vehicles := 1
    size := 2
    nodeToIndex := fun n => n
    indexToNode := fun k => if k = 2 then 0 else k
    starts := fun _ => 0
    ends := fun _ => 2
    activeMax := fun _ => 1
    vehicleVarContains := fun _ _ => true }

/-- Witness for C6 at the concrete model: converting the routes `[[1]]` to
an assignment and back yields `[[1]]` again. -/
theorem routesToAssignment_roundtrip_witness :
    AssignmentToRoutes rtaWitnessModel
        ((RoutesToAssignment rtaWitnessModel [[1]] false true).getD
          (fun _ => none)) =
      some ([[1]] ++ List.replicate (rtaWitnessModel.vehicles - 1) []) :=
  routesToAssignment_roundtrip rtaWitnessModel [[1]] _
    (fun v hv => by norm_num [rtaWitnessModel])
    (fun node h0 h2 => by
      have h2' : node < 2 := h2
      show (if node = 2 then 0 else node) = node
      rw [if_neg (by omega)])
    (by rfl)

end Routing

/-! ## SAT symmetry-detection graph (`boolean_problem.cc`) -/

namespace Sat

/-- The `NodeType` local enum of `GenerateGraphForSymmetryDetection`. -/
inductive SymNodeType where
  | literalNode                -- LITERAL_NODE
  | constraintNode             -- CONSTRAINT_NODE
  | constraintCoefficientNode  -- CONSTRAINT_COEFFICIENT_NODE
deriving Repr, DecidableEq

/-- A term of a canonical constraint (`LiteralWithCoeff` after
`CanonicalBooleanLinearProblem` canonicalisation): the literal's index
representation and its (positive) coefficient. -/
structure CanonicalTerm where
  litIndex : Nat
  coeff : Int
deriving Repr, DecidableEq

/-- A canonical constraint of the `CanonicalBooleanLinearProblem`
(`Constraint(i)` paired with `Rhs(i)`).  Modelled from the spec: the
canonicaliser itself (`AddLinearConstraint` /
`ComputeBooleanLinearExpressionCanonicalForm`, outside these sources)
produces terms with positive coefficients sorted by increasing coefficient;
those facts enter the theorems below as hypotheses. -/
structure CanonicalConstraint where
  terms : List CanonicalTerm
  rhs : Int
deriving Repr, DecidableEq

/-- The equivalence-class key `(type, coefficient)` that
`IdGenerator::GetId` receives for one graph node, recorded per node in
node-index order.  (`GetId` maps distinct keys injectively to dense ids;
the ids themselves play no role in the graph's adjacency.) -/
abbrev SymNodeKey := SymNodeType × Int

/-- `IdGenerator::GetId`: return the id previously generated for the key,
or assign the next dense id (`id_map_.size()`). -/
def symGetId (idMap : List (SymNodeKey × Nat)) (key : SymNodeKey) :
    Nat × List (SymNodeKey × Nat) :=
  match idMap.find? (fun e => e.1 = key) with
  | some e => (e.2, idMap)
  | none => (idMap.length, idMap ++ [(key, idMap.length)])

/-- The dense equivalence-class ids for a node-key sequence, as the
repeated `GetId` calls of the builder produce them. -/
def symAssignIds : List SymNodeKey → List (SymNodeKey × Nat) → List Nat
  | [], _ => []
  | key :: rest, idMap =>
    let r := symGetId idMap key
    r.1 :: symAssignIds rest r.2

/-- The per-constraint term loop of `GenerateGraphForSymmetryDetection`:
walk the (sorted) terms; a term whose coefficient differs from the previous
one allocates a fresh `CONSTRAINT_COEFFICIENT_NODE` connected (both
directions) to the constraint node; every term connects the current node
(initially the constraint node, `previous_coefficient = 1`) to its literal
node, both directions. -/
def addTermNodes (cnode : Nat) :
    List CanonicalTerm → List SymNodeKey → List (Nat × Nat) → Nat → Int →
    List SymNodeKey × List (Nat × Nat)
  | [], keys, arcs, _, _ => (keys, arcs)
  | t :: rest, keys, arcs, current, prev =>
    if t.coeff ≠ prev then
      addTermNodes cnode rest
        (keys ++ [(SymNodeType.constraintCoefficientNode, t.coeff)])
        (arcs ++ [(cnode, keys.length), (keys.length, cnode),
                  (keys.length, t.litIndex), (t.litIndex, keys.length)])
        keys.length t.coeff
    else
      addTermNodes cnode rest keys
        (arcs ++ [(current, t.litIndex), (t.litIndex, current)])
        current prev

/-- The constraint loop of `GenerateGraphForSymmetryDetection`: each
constraint gets a `CONSTRAINT_NODE` keyed by its right-hand side (the next
node index is the current number of nodes), then its terms are walked by
`addTermNodes`. -/
def addConstraintNodes :
    List CanonicalConstraint → List SymNodeKey → List (Nat × Nat) →
    List SymNodeKey × List (Nat × Nat)
  | [], keys, arcs => (keys, arcs)
  | c :: rest, keys, arcs =>
    let r := addTermNodes keys.length c.terms
      (keys ++ [(SymNodeType.constraintNode, c.rhs)]) arcs keys.length 1
    addConstraintNodes rest r.1 r.2

/-- The literal nodes: two per variable, in literal-index order.  Modelled
from the spec for the class keys: a literal node's key is its canonicalised
objective coefficient (`ComputeBooleanLinearExpressionCanonicalForm` of the
objective is outside these sources), 0 for problems without an objective —
supplied here as the function `litObjectiveCoeff`. -/
def litNodeKeys (numVariables : Nat) (litObjectiveCoeff : Nat → Int) :
    List SymNodeKey :=
  (List.range (2 * numVariables)).map
    (fun p => (SymNodeType.literalNode, litObjectiveCoeff p))

/-- The literal–negation edges: for each variable an edge (both arc
directions) between its two literal nodes `2i` and `2i + 1`. -/
def litNodeArcs (numVariables : Nat) : List (Nat × Nat) :=
  (List.range numVariables).flatMap
    (fun i => [(2 * i, 2 * i + 1), (2 * i + 1, 2 * i)])

/-- `GenerateGraphForSymmetryDetection`, as node-key list plus arc list. -/
def generateSymmetryGraph (numVariables : Nat)
    (litObjectiveCoeff : Nat → Int)
    (constraints : List CanonicalConstraint) :
    List SymNodeKey × List (Nat × Nat) :=
  addConstraintNodes constraints (litNodeKeys numVariables litObjectiveCoeff)
    (litNodeArcs numVariables)

/-- The node index of constraint `k`'s `CONSTRAINT_NODE`: the number of
nodes present when constraint `k` is reached. -/
def symConstraintNodeIndex (numVariables : Nat)
    (litObjectiveCoeff : Nat → Int)
    (constraints : List CanonicalConstraint) (k : Nat) : Nat :=
  (addConstraintNodes (constraints.take k)
    (litNodeKeys numVariables litObjectiveCoeff)
    (litNodeArcs numVariables)).1.length

theorem addTermNodes_extends (cnode : Nat) :
    ∀ (terms : List CanonicalTerm) (keys : List SymNodeKey)
      (arcs : List (Nat × Nat)) (current : Nat) (prev : Int),
    ∃ ek ea,
      (addTermNodes cnode terms keys arcs current prev).1 = keys ++ ek ∧
      (addTermNodes cnode terms keys arcs current prev).2 = arcs ++ ea := by
  intro terms
  induction terms with
  | nil =>
    intro keys arcs current prev
    exact ⟨[], [], by simp [addTermNodes], by simp [addTermNodes]⟩
  | cons t rest ih =>
    intro keys arcs current prev
    rw [addTermNodes]
    by_cases hc : t.coeff ≠ prev
    · rw [if_pos hc]
      obtain ⟨ek, ea, h1, h2⟩ := ih
        (keys ++ [(SymNodeType.constraintCoefficientNode, t.coeff)])
        (arcs ++ [(cnode, keys.length), (keys.length, cnode),
          (keys.length, t.litIndex), (t.litIndex, keys.length)])
        keys.length t.coeff
      exact ⟨[(SymNodeType.constraintCoefficientNode, t.coeff)] ++ ek,
        [(cnode, keys.length), (keys.length, cnode),
          (keys.length, t.litIndex), (t.litIndex, keys.length)] ++ ea,
        by rw [h1, List.append_assoc], by rw [h2, List.append_assoc]⟩
    · rw [if_neg hc]
      obtain ⟨ek, ea, h1, h2⟩ := ih keys
        (arcs ++ [(current, t.litIndex), (t.litIndex, current)]) current prev
      exact ⟨ek, [(current, t.litIndex), (t.litIndex, current)] ++ ea, h1,
        by rw [h2, List.append_assoc]⟩

theorem addConstraintNodes_extends :
    ∀ (constraints : List CanonicalConstraint) (keys : List SymNodeKey)
      (arcs : List (Nat × Nat)),
    ∃ ek ea,
      (addConstraintNodes constraints keys arcs).1 = keys ++ ek ∧
      (addConstraintNodes constraints keys arcs).2 = arcs ++ ea := by
  intro constraints
  induction constraints with
  | nil =>
    intro keys arcs
    exact ⟨[], [], by simp [addConstraintNodes], by simp [addConstraintNodes]⟩
  | cons c rest ih =>
    intro keys arcs
    rw [addConstraintNodes]
    obtain ⟨ek1, ea1, h1, h2⟩ := addTermNodes_extends keys.length c.terms
      (keys ++ [(SymNodeType.constraintNode, c.rhs)]) arcs keys.length 1
    obtain ⟨ek2, ea2, h3, h4⟩ := ih
      (addTermNodes keys.length c.terms
        (keys ++ [(SymNodeType.constraintNode, c.rhs)]) arcs keys.length 1).1
      (addTermNodes keys.length c.terms
        (keys ++ [(SymNodeType.constraintNode, c.rhs)]) arcs keys.length 1).2
    refine ⟨[(SymNodeType.constraintNode, c.rhs)] ++ ek1 ++ ek2, ea1 ++ ea2,
      ?_, ?_⟩
    · rw [h3, h1]
      simp [List.append_assoc]
    · rw [h4, h2]
      simp [List.append_assoc]

theorem addTermNodes_keys_le (cnode : Nat) (terms : List CanonicalTerm)
    (keys : List SymNodeKey) (arcs : List (Nat × Nat)) (current : Nat)
    (prev : Int) :
    keys.length ≤ (addTermNodes cnode terms keys arcs current prev).1.length := by
  obtain ⟨ek, ea, h1, _⟩ := addTermNodes_extends cnode terms keys arcs current prev
  rw [h1]
  simp

theorem addTermNodes_keys_get (cnode : Nat) (terms : List CanonicalTerm)
    (keys : List SymNodeKey) (arcs : List (Nat × Nat)) (current : Nat)
    (prev : Int) (q : Nat) (hq : q < keys.length) :
    (addTermNodes cnode terms keys arcs current prev).1[q]? = keys[q]? := by
  obtain ⟨ek, ea, h1, _⟩ := addTermNodes_extends cnode terms keys arcs current prev
  rw [h1, List.getElem?_append_left hq]

theorem addTermNodes_arcs_mono (cnode : Nat) (terms : List CanonicalTerm)
    (keys : List SymNodeKey) (arcs : List (Nat × Nat)) (current : Nat)
    (prev : Int) (xy : Nat × Nat) (h : xy ∈ arcs) :
    xy ∈ (addTermNodes cnode terms keys arcs current prev).2 := by
  obtain ⟨ek, ea, _, h2⟩ := addTermNodes_extends cnode terms keys arcs current prev
  rw [h2]
  exact List.mem_append_left _ h

theorem addConstraintNodes_keys_le (constraints : List CanonicalConstraint)
    (keys : List SymNodeKey) (arcs : List (Nat × Nat)) :
    keys.length ≤ (addConstraintNodes constraints keys arcs).1.length := by
  obtain ⟨ek, ea, h1, _⟩ := addConstraintNodes_extends constraints keys arcs
  rw [h1]
  simp

theorem addConstraintNodes_keys_get (constraints : List CanonicalConstraint)
    (keys : List SymNodeKey) (arcs : List (Nat × Nat)) (q : Nat)
    (hq : q < keys.length) :
    (addConstraintNodes constraints keys arcs).1[q]? = keys[q]? := by
  obtain ⟨ek, ea, h1, _⟩ := addConstraintNodes_extends constraints keys arcs
  rw [h1, List.getElem?_append_left hq]

theorem addConstraintNodes_arcs_mono (constraints : List CanonicalConstraint)
    (keys : List SymNodeKey) (arcs : List (Nat × Nat)) (xy : Nat × Nat)
    (h : xy ∈ arcs) :
    xy ∈ (addConstraintNodes constraints keys arcs).2 := by
  obtain ⟨ek, ea, _, h2⟩ := addConstraintNodes_extends constraints keys arcs
  rw [h2]
  exact List.mem_append_left _ h

theorem addConstraintNodes_append :
    ∀ (l1 l2 : List CanonicalConstraint) (keys : List SymNodeKey)
      (arcs : List (Nat × Nat)),
    addConstraintNodes (l1 ++ l2) keys arcs =
      addConstraintNodes l2 (addConstraintNodes l1 keys arcs).1
        (addConstraintNodes l1 keys arcs).2 := by
  intro l1
  induction l1 with
  | nil => intro l2 keys arcs; rfl
  | cons c rest ih =>
    intro l2 keys arcs
    rw [List.cons_append, addConstraintNodes, addConstraintNodes, ih]

theorem addTermNodes_new_keys (cnode : Nat) :
    ∀ (terms : List CanonicalTerm) (keys : List SymNodeKey)
      (arcs : List (Nat × Nat)) (current : Nat) (prev : Int),
    List.Pairwise (fun a b => a.coeff ≤ b.coeff) terms →
    (∀ t ∈ terms, prev ≤ t.coeff) →
    ∀ q, keys.length ≤ q →
    ∀ key, (addTermNodes cnode terms keys arcs current prev).1[q]? = some key →
    ∃ c, key = (SymNodeType.constraintCoefficientNode, c) ∧ prev < c := by
  intro terms
  induction terms with
  | nil =>
    intro keys arcs current prev _ _ q hq key hkey
    rw [addTermNodes, List.getElem?_eq_none hq] at hkey
    exact absurd hkey (by simp)
  | cons t rest ih =>
    intro keys arcs current prev hsort hge q hq key hkey
    rw [addTermNodes] at hkey
    rw [List.pairwise_cons] at hsort
    by_cases hc : t.coeff ≠ prev
    · rw [if_pos hc] at hkey
      have hprev : prev < t.coeff :=
        lt_of_le_of_ne (hge t (List.mem_cons_self _ _)) (Ne.symm hc)
      by_cases hqe : q = keys.length
      · subst hqe
        rw [addTermNodes_keys_get _ _ _ _ _ _ _ (by simp)] at hkey
        rw [List.getElem?_concat_length] at hkey
        simp only [Option.some.injEq] at hkey
        exact ⟨t.coeff, hkey.symm, hprev⟩
      · have hq' : (keys ++
            [(SymNodeType.constraintCoefficientNode, t.coeff)]).length ≤ q := by
          simp only [List.length_append, List.length_singleton]
          omega
        obtain ⟨c, hck, hcc⟩ := ih _ _ _ _ hsort.2
          (fun s hs => hsort.1 s hs) q hq' key hkey
        exact ⟨c, hck, lt_trans hprev hcc⟩
    · rw [if_neg hc] at hkey
      exact ih _ _ _ _ hsort.2
        (fun s hs => le_trans (hge t (List.mem_cons_self _ _)) (hsort.1 s hs))
        q hq key hkey

theorem addTermNodes_arc_endpoints (cnode : Nat) (L B : Nat) :
    ∀ (terms : List CanonicalTerm) (keys : List SymNodeKey)
      (arcs : List (Nat × Nat)) (current : Nat) (prev : Int),
    B ≤ keys.length →
    (∀ t ∈ terms, t.litIndex < L) →
    ∀ xy : Nat × Nat,
      xy ∈ (addTermNodes cnode terms keys arcs current prev).2 →
    xy ∈ arcs ∨
      ((xy.1 = cnode ∨ xy.1 = current ∨ xy.1 < L ∨ B ≤ xy.1) ∧
       (xy.2 = cnode ∨ xy.2 = current ∨ xy.2 < L ∨ B ≤ xy.2)) := by
  intro terms
  induction terms with
  | nil =>
    intro keys arcs current prev _ _ xy hxy
    rw [addTermNodes] at hxy
    exact Or.inl hxy
  | cons t rest ih =>
    intro keys arcs current prev hB hlit xy hxy
    rw [addTermNodes] at hxy
    by_cases hc : t.coeff ≠ prev
    · rw [if_pos hc] at hxy
      have hlt := hlit t (List.mem_cons_self _ _)
      rcases ih _ _ _ _ (by simp; omega)
          (fun s hs => hlit s (List.mem_cons_of_mem _ hs)) xy hxy with hin | hpart
      · rcases List.mem_append.mp hin with hin | hnew
        · exact Or.inl hin
        · right
          simp only [List.mem_cons, List.not_mem_nil, or_false] at hnew
          rcases hnew with rfl | rfl | rfl | rfl <;>
            refine ⟨?_, ?_⟩ <;> simp <;> omega
      · right
        constructor
        · rcases hpart.1 with h | h | h | h
          · exact Or.inl h
          · right; right; right; omega
          · right; right; left; exact h
          · right; right; right; omega
        · rcases hpart.2 with h | h | h | h
          · exact Or.inl h
          · right; right; right; omega
          · right; right; left; exact h
          · right; right; right; omega
    · rw [if_neg hc] at hxy
      have hlt := hlit t (List.mem_cons_self _ _)
      rcases ih _ _ _ _ hB
          (fun s hs => hlit s (List.mem_cons_of_mem _ hs)) xy hxy with hin | hpart
      · rcases List.mem_append.mp hin with hin | hnew
        · exact Or.inl hin
        · right
          simp only [List.mem_cons, List.not_mem_nil, or_false] at hnew
          rcases hnew with rfl | rfl <;>
            refine ⟨?_, ?_⟩ <;> simp <;> omega
      · exact Or.inr hpart

theorem addTermNodes_current_arcs (cnode : Nat) (L : Nat) :
    ∀ (terms : List CanonicalTerm) (keys : List SymNodeKey)
      (arcs : List (Nat × Nat)) (current : Nat) (prev : Int),
    List.Pairwise (fun a b => a.coeff ≤ b.coeff) terms →
    (∀ t ∈ terms, prev ≤ t.coeff) →
    (∀ t ∈ terms, t.litIndex < L) →
    L ≤ current → current < keys.length → cnode ≠ current →
    ∀ n, ((current, n) ∈ (addTermNodes cnode terms keys arcs current prev).2 ↔
      (current, n) ∈ arcs ∨ ∃ t ∈ terms, t.coeff = prev ∧ n = t.litIndex) := by
  intro terms
  induction terms with
  | nil =>
    intro keys arcs current prev _ _ _ _ _ _ n
    rw [addTermNodes]
    simp
  | cons t rest ih =>
    intro keys arcs current prev hsort hge hlit hLcur hcur hcn n
    rw [List.pairwise_cons] at hsort
    rw [addTermNodes]
    by_cases hc : t.coeff ≠ prev
    · rw [if_pos hc]
      have hprev : prev < t.coeff :=
        lt_of_le_of_ne (hge t (List.mem_cons_self _ _)) (Ne.symm hc)
      have hnone : ∀ t' ∈ t :: rest, ¬ (t'.coeff = prev) := by
        intro t' ht' heq
        rcases List.mem_cons.mp ht' with rfl | ht''
        · exact hc heq
        · have := hsort.1 t' ht''
          omega
      constructor
      · intro hmem
        rcases addTermNodes_arc_endpoints cnode L (keys.length + 1) rest _ _ _ _
            (by simp) (fun s hs => hlit s (List.mem_cons_of_mem _ hs))
            (current, n) hmem with hin | hpart
        · rcases List.mem_append.mp hin with hin | hnew
          · exact Or.inl hin
          · exfalso
            have hlt := hlit t (List.mem_cons_self _ _)
            simp only [List.mem_cons, List.not_mem_nil, or_false] at hnew
            rcases hnew with h | h | h | h <;>
              simp only [Prod.mk.injEq] at h <;> omega
        · exfalso
          have h1 := hpart.1
          simp only at h1
          rcases h1 with h | h | h | h <;> omega
      · intro hmem
        rcases hmem with hin | ⟨t', ht', hcoeff, _⟩
        · exact addTermNodes_arcs_mono _ _ _ _ _ _ _
            (List.mem_append_left _ hin)
        · exact absurd hcoeff (hnone t' ht')
    · rw [if_neg hc]
      rw [not_not] at hc
      have hlt := hlit t (List.mem_cons_self _ _)
      rw [ih _ _ _ _ hsort.2
        (fun s hs => le_trans (hge t (List.mem_cons_self _ _)) (hsort.1 s hs))
        (fun s hs => hlit s (List.mem_cons_of_mem _ hs)) hLcur hcur hcn n]
      constructor
      · rintro (hin | ⟨t', ht', hco, hn⟩)
        · rcases List.mem_append.mp hin with hin | hnew
          · exact Or.inl hin
          · simp only [List.mem_cons, List.not_mem_nil, or_false] at hnew
            rcases hnew with h | h
            · right
              refine ⟨t, List.mem_cons_self _ _, hc, ?_⟩
              have := congrArg Prod.snd h
              simpa using this
            · exfalso
              have := congrArg Prod.fst h
              simp at this
              omega
        · exact Or.inr ⟨t', List.mem_cons_of_mem _ ht', hco, hn⟩
      · rintro (hin | ⟨t', ht', hco, hn⟩)
        · exact Or.inl (List.mem_append_left _ hin)
        · rcases List.mem_cons.mp ht' with rfl | ht''
          · left
            rw [hn]
            exact List.mem_append_right _ (List.mem_cons_self _ _)
          · exact Or.inr ⟨t', ht'', hco, hn⟩

theorem addTermNodes_prev_coeff_arcs (cnode : Nat) :
    ∀ (terms : List CanonicalTerm) (keys : List SymNodeKey)
      (arcs : List (Nat × Nat)) (current : Nat) (prev : Int),
    List.Pairwise (fun a b => a.coeff ≤ b.coeff) terms →
    (∀ t ∈ terms, prev ≤ t.coeff) →
    ∀ t0 ∈ terms, t0.coeff = prev →
      (current, t0.litIndex) ∈
          (addTermNodes cnode terms keys arcs current prev).2 ∧
      (t0.litIndex, current) ∈
          (addTermNodes cnode terms keys arcs current prev).2 := by
  intro terms
  induction terms with
  | nil =>
    intro keys arcs current prev _ _ t0 ht0
    exact absurd ht0 (by simp)
  | cons t rest ih =>
    intro keys arcs current prev hsort hge t0 ht0 hco
    rw [List.pairwise_cons] at hsort
    rw [addTermNodes]
    by_cases hc : t.coeff ≠ prev
    · exfalso
      rcases List.mem_cons.mp ht0 with rfl | ht0'
      · exact hc hco
      · have h1 := hsort.1 t0 ht0'
        have h2 := hge t (List.mem_cons_self _ _)
        omega
    · rw [if_neg hc]
      rcases List.mem_cons.mp ht0 with rfl | ht0'
      · constructor <;>
          exact addTermNodes_arcs_mono _ _ _ _ _ _ _
            (List.mem_append_right _ (by simp))
      · exact ih _ _ _ _ hsort.2
          (fun s hs => le_trans (hge t (List.mem_cons_self _ _))
            (hsort.1 s hs)) t0 ht0' hco

theorem addTermNodes_coeff_node (cnode : Nat) (L : Nat) :
    ∀ (terms : List CanonicalTerm) (keys : List SymNodeKey)
      (arcs : List (Nat × Nat)) (current : Nat) (prev : Int),
    List.Pairwise (fun a b => a.coeff ≤ b.coeff) terms →
    (∀ t ∈ terms, prev ≤ t.coeff) →
    (∀ xy ∈ arcs, xy.1 < keys.length) →
    cnode < keys.length → current < keys.length →
    (∀ t ∈ terms, t.litIndex < L) → L ≤ keys.length →
    ∀ cval, prev < cval → (∃ t ∈ terms, t.coeff = cval) →
    ∃ p, keys.length ≤ p ∧
      p < (addTermNodes cnode terms keys arcs current prev).1.length ∧
      (addTermNodes cnode terms keys arcs current prev).1[p]? =
        some (SymNodeType.constraintCoefficientNode, cval) ∧
      (∀ q, keys.length ≤ q →
        (addTermNodes cnode terms keys arcs current prev).1[q]? =
          some (SymNodeType.constraintCoefficientNode, cval) → q = p) ∧
      (∀ n, ((p, n) ∈ (addTermNodes cnode terms keys arcs current prev).2 ↔
        n = cnode ∨ ∃ t ∈ terms, t.coeff = cval ∧ n = t.litIndex)) := by
  intro terms
  induction terms with
  | nil =>
    intro keys arcs current prev _ _ _ _ _ _ _ cval _ hex
    exact absurd hex (by simp)
  | cons t rest ih =>
    intro keys arcs current prev hsort hge harcs hcnode hcur hlit hL cval
      hprevc hex
    have hsort' := hsort
    rw [List.pairwise_cons] at hsort'
    rw [addTermNodes]
    by_cases hc : t.coeff ≠ prev
    · rw [if_pos hc]
      have hprev : prev < t.coeff :=
        lt_of_le_of_ne (hge t (List.mem_cons_self _ _)) (Ne.symm hc)
      have hlt := hlit t (List.mem_cons_self _ _)
      by_cases hcv : cval = t.coeff
      · -- the node allocated right here is the one
        subst hcv
        refine ⟨keys.length, le_rfl, ?_, ?_, ?_, ?_⟩
        · calc keys.length < (keys ++
              [(SymNodeType.constraintCoefficientNode, t.coeff)]).length := by
                simp
            _ ≤ _ := addTermNodes_keys_le _ _ _ _ _ _
        · rw [addTermNodes_keys_get _ _ _ _ _ _ _ (by simp),
            List.getElem?_concat_length]
        · intro q hq hkey
          by_cases hqe : q = keys.length
          · exact hqe
          · exfalso
            obtain ⟨c, hck, hcc⟩ := addTermNodes_new_keys cnode rest _ _ _ _
              hsort'.2 (fun s hs => hsort'.1 s hs) q
              (by simp only [List.length_append, List.length_singleton]; omega)
              _ hkey
            simp only [Prod.mk.injEq] at hck
            omega
        · intro n
          rw [addTermNodes_current_arcs cnode L rest _ _ _ _ hsort'.2
            (fun s hs => hsort'.1 s hs)
            (fun s hs => hlit s (List.mem_cons_of_mem _ hs))
            hL (by simp) (by omega) n]
          constructor
          · rintro (hin | ⟨t', ht', hco, hn⟩)
            · rcases List.mem_append.mp hin with hin | hnew
              · exact absurd (harcs _ hin) (by simp)
              · simp only [List.mem_cons, List.not_mem_nil, or_false] at hnew
                rcases hnew with h | h | h | h
                · exact absurd (congrArg Prod.fst h) (by simp; omega)
                · left
                  have := congrArg Prod.snd h
                  simpa using this
                · right
                  refine ⟨t, List.mem_cons_self _ _, rfl, ?_⟩
                  have := congrArg Prod.snd h
                  simpa using this
                · exact absurd (congrArg Prod.fst h) (by simp; omega)
            · exact Or.inr ⟨t', List.mem_cons_of_mem _ ht', hco, hn⟩
          · rintro (rfl | ⟨t', ht', hco, hn⟩)
            · left
              exact List.mem_append_right _ (by simp)
            · rcases List.mem_cons.mp ht' with rfl | ht''
              · left
                rw [hn]
                exact List.mem_append_right _ (by simp)
              · exact Or.inr ⟨t', ht'', hco, hn⟩
      · -- the coefficient appears strictly later
        have hcval_gt : t.coeff < cval := by
          obtain ⟨t', ht', hco⟩ := hex
          rcases List.mem_cons.mp ht' with rfl | ht''
          · exact absurd hco.symm hcv
          · have := hsort'.1 t' ht''
            omega
        have hex' : ∃ t' ∈ rest, t'.coeff = cval := by
          obtain ⟨t', ht', hco⟩ := hex
          rcases List.mem_cons.mp ht' with rfl | ht''
          · exact absurd hco.symm hcv
          · exact ⟨t', ht'', hco⟩
        obtain ⟨p, hp1, hp2, hp3, hp4, hp5⟩ := ih
          (keys ++ [(SymNodeType.constraintCoefficientNode, t.coeff)])
          (arcs ++ [(cnode, keys.length), (keys.length, cnode),
            (keys.length, t.litIndex), (t.litIndex, keys.length)])
          keys.length t.coeff hsort'.2 (fun s hs => hsort'.1 s hs)
          (by
            intro xy hxy
            rcases List.mem_append.mp hxy with hin | hnew
            · calc xy.1 < keys.length := harcs _ hin
                _ < _ := by simp
            · simp only [List.mem_cons, List.not_mem_nil, or_false] at hnew
              rcases hnew with rfl | rfl | rfl | rfl <;> simp <;> omega)
          (by simp; omega) (by simp) (fun s hs => hlit s (List.mem_cons_of_mem _ hs))
          (by simp; omega) cval hcval_gt hex'
        refine ⟨p, by simp at hp1; omega, hp2, hp3, ?_, ?_⟩
        · intro q hq hkey
          by_cases hqe : q = keys.length
          · exfalso
            subst hqe
            rw [addTermNodes_keys_get _ _ _ _ _ _ _ (by simp),
              List.getElem?_concat_length] at hkey
            simp only [Option.some.injEq, Prod.mk.injEq] at hkey
            omega
          · exact hp4 q (by simp only [List.length_append,
              List.length_singleton]; omega) hkey
        · intro n
          rw [hp5 n]
          constructor
          · rintro (rfl | ⟨t', ht', hco, hn⟩)
            · exact Or.inl rfl
            · exact Or.inr ⟨t', List.mem_cons_of_mem _ ht', hco, hn⟩
          · rintro (rfl | ⟨t', ht', hco, hn⟩)
            · exact Or.inl rfl
            · rcases List.mem_cons.mp ht' with rfl | ht''
              · exact absurd hco.symm hcv
              · exact Or.inr ⟨t', ht'', hco, hn⟩
    · rw [if_neg hc]
      rw [not_not] at hc
      have hex' : ∃ t' ∈ rest, t'.coeff = cval := by
        obtain ⟨t', ht', hco⟩ := hex
        rcases List.mem_cons.mp ht' with rfl | ht''
        · exfalso; omega
        · exact ⟨t', ht'', hco⟩
      obtain ⟨p, hp1, hp2, hp3, hp4, hp5⟩ := ih keys
        (arcs ++ [(current, t.litIndex), (t.litIndex, current)])
        current prev hsort'.2
        (fun s hs => le_trans (hge t (List.mem_cons_self _ _)) (hsort'.1 s hs))
        (by
          intro xy hxy
          rcases List.mem_append.mp hxy with hin | hnew
          · exact harcs _ hin
          · have hlt := hlit t (List.mem_cons_self _ _)
            simp only [List.mem_cons, List.not_mem_nil, or_false] at hnew
            rcases hnew with rfl | rfl <;> simp <;> omega)
        hcnode hcur (fun s hs => hlit s (List.mem_cons_of_mem _ hs)) hL
        cval hprevc hex'
      refine ⟨p, hp1, hp2, hp3, hp4, ?_⟩
      intro n
      rw [hp5 n]
      constructor
      · rintro (rfl | ⟨t', ht', hco, hn⟩)
        · exact Or.inl rfl
        · exact Or.inr ⟨t', List.mem_cons_of_mem _ ht', hco, hn⟩
      · rintro (rfl | ⟨t', ht', hco, hn⟩)
        · exact Or.inl rfl
        · rcases List.mem_cons.mp ht' with rfl | ht''
          · exfalso; omega
          · exact Or.inr ⟨t', ht'', hco, hn⟩

theorem addTermNodes_arcs_fst_lt (cnode L : Nat) :
    ∀ (terms : List CanonicalTerm) (keys : List SymNodeKey)
      (arcs : List (Nat × Nat)) (current : Nat) (prev : Int),
    (∀ xy ∈ arcs, xy.1 < keys.length) → cnode < keys.length →
    current < keys.length → (∀ t ∈ terms, t.litIndex < L) →
    L ≤ keys.length →
    ∀ xy ∈ (addTermNodes cnode terms keys arcs current prev).2,
      xy.1 < (addTermNodes cnode terms keys arcs current prev).1.length := by
  intro terms
  induction terms with
  | nil =>
    intro keys arcs current prev harcs _ _ _ _ xy hxy
    rw [addTermNodes] at hxy ⊢
    exact harcs xy hxy
  | cons t rest ih =>
    intro keys arcs current prev harcs hcnode hcur hlit hL xy hxy
    have hlt := hlit t (List.mem_cons_self _ _)
    rw [addTermNodes] at hxy ⊢
    by_cases hc : t.coeff ≠ prev
    · rw [if_pos hc] at hxy ⊢
      refine ih _ _ _ _ ?_ (by simp; omega) (by simp)
        (fun s hs => hlit s (List.mem_cons_of_mem _ hs)) (by simp; omega)
        xy hxy
      intro ab hab
      rcases List.mem_append.mp hab with hin | hnew
      · calc ab.1 < keys.length := harcs _ hin
          _ < _ := by simp
      · simp only [List.mem_cons, List.not_mem_nil, or_false] at hnew
        rcases hnew with rfl | rfl | rfl | rfl <;> simp <;> omega
    · rw [if_neg hc] at hxy ⊢
      refine ih _ _ _ _ ?_ hcnode hcur
        (fun s hs => hlit s (List.mem_cons_of_mem _ hs)) hL xy hxy
      intro ab hab
      rcases List.mem_append.mp hab with hin | hnew
      · exact harcs _ hin
      · simp only [List.mem_cons, List.not_mem_nil, or_false] at hnew
        rcases hnew with rfl | rfl <;> simp <;> omega

theorem addConstraintNodes_arcs_fst_lt (L : Nat) :
    ∀ (constraints : List CanonicalConstraint) (keys : List SymNodeKey)
      (arcs : List (Nat × Nat)),
    (∀ xy ∈ arcs, xy.1 < keys.length) →
    (∀ c ∈ constraints, ∀ t ∈ c.terms, t.litIndex < L) →
    L ≤ keys.length →
    ∀ xy ∈ (addConstraintNodes constraints keys arcs).2,
      xy.1 < (addConstraintNodes constraints keys arcs).1.length := by
  intro constraints
  induction constraints with
  | nil =>
    intro keys arcs harcs _ _ xy hxy
    rw [addConstraintNodes] at hxy ⊢
    exact harcs xy hxy
  | cons c rest ih =>
    intro keys arcs harcs hlit hL xy hxy
    rw [addConstraintNodes] at hxy ⊢
    refine ih _ _ ?_ (fun d hd => hlit d (List.mem_cons_of_mem _ hd)) ?_ xy hxy
    · exact addTermNodes_arcs_fst_lt keys.length L c.terms _ _ _ _
        (by
          intro ab hab
          calc ab.1 < keys.length := harcs _ hab
            _ < _ := by simp)
        (by simp) (by simp)
        (fun s hs => hlit c (List.mem_cons_self _ _) s hs) (by simp; omega)
    · calc L ≤ keys.length := hL
        _ ≤ (keys ++ [(SymNodeType.constraintNode, c.rhs)]).length := by simp
        _ ≤ _ := addTermNodes_keys_le _ _ _ _ _ _

theorem addConstraintNodes_arc_endpoints (L : Nat) :
    ∀ (constraints : List CanonicalConstraint) (keys : List SymNodeKey)
      (arcs : List (Nat × Nat)),
    (∀ c ∈ constraints, ∀ t ∈ c.terms, t.litIndex < L) →
    ∀ xy : Nat × Nat, xy ∈ (addConstraintNodes constraints keys arcs).2 →
    xy ∈ arcs ∨
      ((xy.1 < L ∨ keys.length ≤ xy.1) ∧ (xy.2 < L ∨ keys.length ≤ xy.2)) := by
  intro constraints
  induction constraints with
  | nil =>
    intro keys arcs _ xy hxy
    rw [addConstraintNodes] at hxy
    exact Or.inl hxy
  | cons c rest ih =>
    intro keys arcs hlit xy hxy
    rw [addConstraintNodes] at hxy
    rcases ih _ _ (fun d hd => hlit d (List.mem_cons_of_mem _ hd)) xy hxy with
      hin | hpart
    · rcases addTermNodes_arc_endpoints keys.length L keys.length c.terms _ _
          _ _ (by simp) (fun s hs => hlit c (List.mem_cons_self _ _) s hs)
          xy hin with hin2 | hpart2
      · exact Or.inl hin2
      · right
        constructor
        · rcases hpart2.1 with h | h | h | h <;> omega
        · rcases hpart2.2 with h | h | h | h <;> omega
    · right
      have hk1 : keys.length ≤
          (keys ++ [(SymNodeType.constraintNode, c.rhs)]).length := by simp
      have hk2 := addTermNodes_keys_le keys.length c.terms
        (keys ++ [(SymNodeType.constraintNode, c.rhs)]) arcs keys.length 1
      constructor
      · rcases hpart.1 with h | h
        · exact Or.inl h
        · right; omega
      · rcases hpart.2 with h | h
        · exact Or.inl h
        · right; omega

theorem litNodeArcs_fst_lt (numVariables : Nat) :
    ∀ xy ∈ litNodeArcs numVariables, xy.1 < 2 * numVariables := by
  intro xy hxy
  rw [litNodeArcs, List.mem_flatMap] at hxy
  obtain ⟨i, hi, hxy⟩ := hxy
  rw [List.mem_range] at hi
  simp only [List.mem_cons, List.not_mem_nil, or_false] at hxy
  rcases hxy with rfl | rfl <;> simp <;> omega

/-- C9 (amended). In the symmetry-detection graph, for every canonical
constraint (terms sorted by coefficient, all coefficients ≥ 1, literal
indices in range): the constraint's node carries its right-hand side; the
literals of its coefficient-1 terms are connected directly to the
constraint node; and every distinct coefficient value *other than 1*
occurring among its terms has exactly one dedicated per-coefficient node in
the constraint's node block, adjacent to the constraint node and to exactly
the literal nodes whose term carries that coefficient. -/
theorem symGraph_coefficient_node_characterisation (numVariables : Nat)
    (litObjectiveCoeff : Nat → Int)
    (constraints : List CanonicalConstraint)
    (hsorted : ∀ c ∈ constraints,
      List.Pairwise (fun a b => a.coeff ≤ b.coeff) c.terms)
    (hpos : ∀ c ∈ constraints, ∀ t ∈ c.terms, 1 ≤ t.coeff)
    (hlit : ∀ c ∈ constraints, ∀ t ∈ c.terms,
      t.litIndex < 2 * numVariables)
    (k : Nat) (hk : k < constraints.length) :
    (generateSymmetryGraph numVariables litObjectiveCoeff constraints).1[
        symConstraintNodeIndex numVariables litObjectiveCoeff constraints k]? =
      some (SymNodeType.constraintNode, (constraints.get ⟨k, hk⟩).rhs) ∧
    (∀ t ∈ (constraints.get ⟨k, hk⟩).terms, t.coeff = 1 →
      (symConstraintNodeIndex numVariables litObjectiveCoeff constraints k,
        t.litIndex) ∈
        (generateSymmetryGraph numVariables litObjectiveCoeff constraints).2 ∧
      (t.litIndex,
        symConstraintNodeIndex numVariables litObjectiveCoeff constraints k) ∈
        (generateSymmetryGraph numVariables litObjectiveCoeff constraints).2) ∧
    (∀ cval : Int, cval ≠ 1 →
      (∃ t ∈ (constraints.get ⟨k, hk⟩).terms, t.coeff = cval) →
      ∃ p,
        symConstraintNodeIndex numVariables litObjectiveCoeff constraints k
          < p ∧
        p < symConstraintNodeIndex numVariables litObjectiveCoeff constraints
          (k + 1) ∧
        (generateSymmetryGraph numVariables litObjectiveCoeff
          constraints).1[p]? =
          some (SymNodeType.constraintCoefficientNode, cval) ∧
        (∀ q,
          symConstraintNodeIndex numVariables litObjectiveCoeff constraints k
            ≤ q →
          q < symConstraintNodeIndex numVariables litObjectiveCoeff
            constraints (k + 1) →
          (generateSymmetryGraph numVariables litObjectiveCoeff
            constraints).1[q]? =
            some (SymNodeType.constraintCoefficientNode, cval) → q = p) ∧
        (∀ n, ((p, n) ∈ (generateSymmetryGraph numVariables litObjectiveCoeff
            constraints).2 ↔
          n = symConstraintNodeIndex numVariables litObjectiveCoeff
            constraints k ∨
          ∃ t ∈ (constraints.get ⟨k, hk⟩).terms,
            t.coeff = cval ∧ n = t.litIndex))) := by
  set c := constraints.get ⟨k, hk⟩ with hc
  have hcmem : c ∈ constraints := List.get_mem _ _ hk
  set initK := litNodeKeys numVariables litObjectiveCoeff with hinitK
  set initA := litNodeArcs numVariables with hinitA
  have hinitlen : initK.length = 2 * numVariables := by
    rw [hinitK, litNodeKeys]
    simp
  set K0 := (addConstraintNodes (constraints.take k) initK initA).1 with hK0
  set A0 := (addConstraintNodes (constraints.take k) initK initA).2 with hA0
  have hcnodeK : symConstraintNodeIndex numVariables litObjectiveCoeff
      constraints k = K0.length := rfl
  have hK0len : 2 * numVariables ≤ K0.length := by
    rw [hK0, ← hinitlen]
    exact addConstraintNodes_keys_le _ _ _
  have hA0bound : ∀ xy ∈ A0, xy.1 < K0.length := by
    intro xy hxy
    exact addConstraintNodes_arcs_fst_lt (2 * numVariables)
      (constraints.take k) initK initA
      (by rw [hinitlen]; exact litNodeArcs_fst_lt numVariables)
      (fun d hd => hlit d (List.mem_of_mem_take hd))
      (le_of_eq hinitlen.symm) xy hxy
  have hTake : constraints.take (k + 1) = constraints.take k ++ [c] := by
    rw [List.take_succ]
    congr 1
    rw [List.getElem?_eq_getElem hk]
    rfl
  set K1 := (addTermNodes K0.length c.terms
    (K0 ++ [(SymNodeType.constraintNode, c.rhs)]) A0 K0.length 1).1 with hK1
  set A1 := (addTermNodes K0.length c.terms
    (K0 ++ [(SymNodeType.constraintNode, c.rhs)]) A0 K0.length 1).2 with hA1
  have hstep : addConstraintNodes (constraints.take (k + 1)) initK initA =
      (K1, A1) := by
    rw [hTake, addConstraintNodes_append, ← hK0, ← hA0, addConstraintNodes,
      addConstraintNodes]
  have hendK : symConstraintNodeIndex numVariables litObjectiveCoeff
      constraints (k + 1) = K1.length := by
    rw [symConstraintNodeIndex, hstep]
  have hsplit : constraints = constraints.take (k + 1) ++
      constraints.drop (k + 1) := (List.take_append_drop _ _).symm
  have hFinal : generateSymmetryGraph numVariables litObjectiveCoeff
      constraints =
      addConstraintNodes (constraints.drop (k + 1)) K1 A1 := by
    rw [generateSymmetryGraph, ← hinitK, ← hinitA]
    conv in addConstraintNodes constraints _ _ => rw [hsplit]
    rw [addConstraintNodes_append, hstep]
  have hK1len : K0.length + 1 ≤ K1.length := by
    have h := addTermNodes_keys_le K0.length c.terms
      (K0 ++ [(SymNodeType.constraintNode, c.rhs)]) A0 K0.length 1
    simpa using h
  have hfinalget : ∀ q, q < K1.length →
      (generateSymmetryGraph numVariables litObjectiveCoeff
        constraints).1[q]? = K1[q]? := by
    intro q hq
    rw [hFinal]
    exact addConstraintNodes_keys_get _ _ _ q hq
  have hK1cnode : K1[K0.length]? =
      some (SymNodeType.constraintNode, c.rhs) := by
    rw [hK1, addTermNodes_keys_get _ _ _ _ _ _ _ (by simp),
      List.getElem?_concat_length]
  refine ⟨?_, ?_, ?_⟩
  · rw [hcnodeK, hfinalget _ (by omega), hK1cnode]
  · intro t ht hco
    have h := addTermNodes_prev_coeff_arcs K0.length c.terms
      (K0 ++ [(SymNodeType.constraintNode, c.rhs)]) A0 K0.length 1
      (hsorted c hcmem) (hpos c hcmem) t ht hco
    rw [hcnodeK]
    constructor
    · rw [hFinal]
      exact addConstraintNodes_arcs_mono _ _ _ _ h.1
    · rw [hFinal]
      exact addConstraintNodes_arcs_mono _ _ _ _ h.2
  · intro cval hcv hex
    have hone : (1 : Int) < cval := by
      obtain ⟨t, ht, hco⟩ := hex
      have := hpos c hcmem t ht
      omega
    obtain ⟨p, hp1, hp2, hp3, hp4, hp5⟩ := addTermNodes_coeff_node K0.length
      (2 * numVariables) c.terms
      (K0 ++ [(SymNodeType.constraintNode, c.rhs)]) A0 K0.length 1
      (hsorted c hcmem) (hpos c hcmem)
      (by
        intro xy hxy
        calc xy.1 < K0.length := hA0bound xy hxy
          _ < _ := by simp)
      (by simp) (by simp) (hlit c hcmem)
      (by simp only [List.length_append, List.length_singleton]; omega)
      cval hone hex
    simp only [List.length_append, List.length_singleton] at hp1
    have hp2' : p < K1.length := hp2
    refine ⟨p, by omega, by rw [hendK]; exact hp2', ?_, ?_, ?_⟩
    · rw [hfinalget _ hp2]
      exact hp3
    · intro q hq1 hq2 hkey
      rw [hendK] at hq2
      rw [hfinalget _ hq2] at hkey
      rw [hcnodeK] at hq1
      by_cases hqe : q = K0.length
      · exfalso
        subst hqe
        rw [hK1cnode] at hkey
        simp at hkey
      · exact hp4 q (by simp; omega) hkey
    · intro n
      rw [hcnodeK]
      rw [← hp5 n]
      constructor
      · intro hmem
        rw [hFinal] at hmem
        rcases addConstraintNodes_arc_endpoints (2 * numVariables)
            (constraints.drop (k + 1)) K1 A1
            (fun d hd => hlit d (List.mem_of_mem_drop hd)) (p, n) hmem with
          hin | hpart
        · exact hin
        · exfalso
          have h1 := hpart.1
          simp only at h1
          rcases h1 with h | h <;> omega
      · intro hmem
        rw [hFinal]
        exact addConstraintNodes_arcs_mono _ _ _ _ hmem

/-- C9 (counterexample). For the problem with one variable and the single
canonical constraint `1·x ≥ 1`, the coefficient value 1 occurs among the
constraint's terms, yet the generated graph has no
`CONSTRAINT_COEFFICIENT_NODE` at all (its nodes are the two literal nodes
and the constraint node): literals with coefficient 1 hang directly off the
constraint node, refuting "for every distinct coefficient value … there is
a dedicated per-coefficient node". -/
theorem symGraph_no_coefficient_node_for_unit_coefficient :
    (generateSymmetryGraph 1 (fun _ => 0)
        [⟨[⟨0, 1⟩], 1⟩]).1 =
      [(SymNodeType.literalNode, 0), (SymNodeType.literalNode, 0),
       (SymNodeType.constraintNode, 1)] ∧
    ((1 : Int) ∈ (([⟨0, 1⟩] : List CanonicalTerm).map
      CanonicalTerm.coeff)) ∧
    ((generateSymmetryGraph 1 (fun _ => 0) [⟨[⟨0, 1⟩], 1⟩]).1.all
      (fun key =>
        key.1 ≠ SymNodeType.constraintCoefficientNode)) = true := by
  refine ⟨by decide, by decide, by decide⟩

/-- Witness for C9's amended theorem at a concrete canonical problem with
one variable and the constraint `2·x + 3·x̄ ≥ 4` (terms on the two literal
nodes 0 and 1): coefficient 2 receives a dedicated node adjacent to the
constraint node and to exactly the literal of its term. -/
theorem symGraph_coefficient_node_characterisation_witness :
    ∃ p,
      symConstraintNodeIndex 1 (fun _ => 0) [⟨[⟨0, 2⟩, ⟨1, 3⟩], 4⟩] 0 < p ∧
      p < symConstraintNodeIndex 1 (fun _ => 0) [⟨[⟨0, 2⟩, ⟨1, 3⟩], 4⟩] 1 ∧
      (generateSymmetryGraph 1 (fun _ => 0) [⟨[⟨0, 2⟩, ⟨1, 3⟩], 4⟩]).1[p]? =
        some (SymNodeType.constraintCoefficientNode, 2) ∧
      (∀ q,
        symConstraintNodeIndex 1 (fun _ => 0) [⟨[⟨0, 2⟩, ⟨1, 3⟩], 4⟩] 0 ≤ q →
        q < symConstraintNodeIndex 1 (fun _ => 0) [⟨[⟨0, 2⟩, ⟨1, 3⟩], 4⟩] 1 →
        (generateSymmetryGraph 1 (fun _ => 0)
          [⟨[⟨0, 2⟩, ⟨1, 3⟩], 4⟩]).1[q]? =
          some (SymNodeType.constraintCoefficientNode, 2) → q = p) ∧
      (∀ n, ((p, n) ∈ (generateSymmetryGraph 1 (fun _ => 0)
          [⟨[⟨0, 2⟩, ⟨1, 3⟩], 4⟩]).2 ↔
        n = symConstraintNodeIndex 1 (fun _ => 0)
          [⟨[⟨0, 2⟩, ⟨1, 3⟩], 4⟩] 0 ∨
        ∃ t ∈ (([⟨[⟨0, 2⟩, ⟨1, 3⟩], 4⟩] :
            List CanonicalConstraint).get ⟨0, by decide⟩).terms,
          t.coeff = 2 ∧ n = t.litIndex)) :=
  (symGraph_coefficient_node_characterisation 1 (fun _ => 0)
    [⟨[⟨0, 2⟩, ⟨1, 3⟩], 4⟩]
    (by decide) (by decide) (by decide) 0 (by decide)).2.2 2
    (by decide) ⟨⟨0, 2⟩, by decide, rfl⟩

end Sat

end OrTools
